import Mathlib

/-!
# Student-Manager CRUD: validation, search, sort, CSV export and id allocation

A shallow embedding of `src/services.js` (the functions `validateUserData`,
`searchUsers`, `sortUsers`, `exportUsersToCSV`, `initializeUserIds`) and of the
parts of `src/script.js` that allocate ids and submit the user form.

JavaScript strings are sequences of UTF-16 code units, and `length`, `trim`,
`includes`, the relational operators and regular expressions without the `u`
flag all work on code units.  A string is therefore a list of code units.
Built-ins whose result is fixed by large tables or left to the engine
(`toLowerCase`, `Date` parsing, `Number.parseInt`, `Array.prototype.sort`) are
fields of a `JSRuntime`; what ECMAScript guarantees of `sort` and what V8's sort
does beyond it are stated as properties of a runtime.
-/

namespace StudentManager

/-! ## Strings -/

/-- A JavaScript string: its UTF-16 code units. -/
abbrev JSString := List Nat

/-- The code units of one Unicode scalar value. -/
def utf16Units (c : Char) : List Nat :=
  let n := c.toNat
  if n < 0x10000 then [n]
  else [0xD800 + (n - 0x10000) / 0x400, 0xDC00 + (n - 0x10000) % 0x400]

/-- The JavaScript string denoted by a string literal. -/
def js (s : String) : JSString := s.toList.flatMap utf16Units

/-- The code units matched by `\s`; the same set is stripped by `trim`
(ECMAScript WhiteSpace and LineTerminator). -/
def isWhiteSpace (c : Nat) : Bool :=
  c == 0x09 || c == 0x0A || c == 0x0B || c == 0x0C || c == 0x0D || c == 0x20 ||
  c == 0xA0 || c == 0x1680 || (0x2000 ≤ c && c ≤ 0x200A) || c == 0x2028 ||
  c == 0x2029 || c == 0x202F || c == 0x205F || c == 0x3000 || c == 0xFEFF

/-- The code units matched by `\d`. -/
def isDigit (c : Nat) : Bool := 0x30 ≤ c && c ≤ 0x39

/-- The method `String.prototype.trim`. -/
def trim (s : JSString) : JSString :=
  ((s.dropWhile isWhiteSpace).reverse.dropWhile isWhiteSpace).reverse

/-- The test `s.includes(t)`: `t` occurs in `s` as a contiguous run of code units. -/
def includes (s t : JSString) : Bool :=
  s.tails.any (fun u => t.isPrefixOf u)

/-- The test `a < b` on two strings: lexicographic order on code units. -/
def strLt : JSString → JSString → Bool
  | [], [] => false
  | [], _ :: _ => true
  | _ :: _, [] => false
  | a :: as, b :: bs => a < b || (a == b && strLt as bs)

/-- The method `Array.prototype.join` on an array of strings. -/
def join (sep : JSString) : List JSString → JSString
  | [] => []
  | [x] => x
  | x :: y :: rest => x ++ sep ++ join sep (y :: rest)

/-- Truthiness of a value that is either `undefined` or a string: `!v` is
true for `undefined` and for the empty string. -/
def falsy : Option JSString → Bool
  | none => true
  | some s => s.isEmpty

/-! ## Regular expressions -/

/-- The regular expressions used by the validator: character classes,
concatenation, alternation and iteration. -/
inductive RegExp where
  | none : RegExp
  | eps : RegExp
  | cls (p : Nat → Bool) : RegExp
  | seq (r s : RegExp) : RegExp
  | alt (r s : RegExp) : RegExp
  | star (r : RegExp) : RegExp

namespace RegExp

/-- Whether the expression matches the empty string. -/
def nullable : RegExp → Bool
  | none => false
  | eps => true
  | cls _ => false
  | seq r s => nullable r && nullable s
  | alt r s => nullable r || nullable s
  | star _ => true

/-- The expression matching what is left after reading code unit `c`. -/
def deriv (c : Nat) : RegExp → RegExp
  | none => none
  | eps => none
  | cls p => if p c then eps else none
  | seq r s => if nullable r then alt (seq (deriv c r) s) (deriv c s) else seq (deriv c r) s
  | alt r s => alt (deriv c r) (deriv c s)
  | star r => seq (deriv c r) (star r)

/-- The quantifier `r+`. -/
def plus (r : RegExp) : RegExp := seq r (star r)

/-- The quantifier `r?`. -/
def opt (r : RegExp) : RegExp := alt eps r

/-- Exactly `n` copies of `r`. -/
def times (r : RegExp) : Nat → RegExp
  | 0 => eps
  | n + 1 => seq r (times r n)

/-- Up to `n` copies of `r`. -/
def upTo (r : RegExp) : Nat → RegExp
  | 0 => eps
  | n + 1 => opt (seq r (upTo r n))

/-- The quantifier `r{lo,hi}`. -/
def range (r : RegExp) (lo hi : Nat) : RegExp := seq (times r lo) (upTo r (hi - lo))

/-- The method `test` of an expression written `/^r$/` with no flags: the
whole string belongs to the language of `r`. -/
def test : RegExp → JSString → Bool
  | r, [] => nullable r
  | r, c :: s => test (deriv c r) s

end RegExp

/-- The class `[^\s@]`. -/
def notSpaceAt (c : Nat) : Bool := !(isWhiteSpace c || c == 0x40)

/-- The literal `/^[^\s@]+@[^\s@]+\.[^\s@]+$/`. -/
def emailRegex : RegExp :=
  .seq (.plus (.cls notSpaceAt)) (.seq (.cls (· == 0x40))
    (.seq (.plus (.cls notSpaceAt)) (.seq (.cls (· == 0x2E)) (.plus (.cls notSpaceAt)))))

/-- The literal `/^\d{10,15}$/`. -/
def phoneRegex : RegExp := .range (.cls isDigit) 10 15

/-- The call `s.replace(/\D/g, "")`: every code unit that is not a digit is removed. -/
def stripNonDigits (s : JSString) : JSString := s.filter isDigit

/-! ## Data model -/

/-- A stored record: the six fields of a user, all strings. -/
structure User where
  id : JSString
  name : JSString
  email : JSString
  phone : JSString
  enrollNumber : JSString
  dateOfAdmission : JSString
deriving DecidableEq, Repr

/-- A candidate record handed to the validator or sent to the store; a field
that is not set reads as `undefined`. -/
structure UserData where
  id : Option JSString := none
  name : Option JSString := none
  email : Option JSString := none
  phone : Option JSString := none
  enrollNumber : Option JSString := none
  dateOfAdmission : Option JSString := none
deriving DecidableEq, Repr

/-- The object returned by `validateUserData`. -/
structure ValidationResult where
  isValid : Bool
  errors : List JSString
deriving DecidableEq, Repr

/-- A JavaScript number that is an integer or `NaN` (`none`). -/
abbrev JSNumber := Option Int

/-- The test `a < b` on numbers: false as soon as one side is `NaN`. -/
def numLt : JSNumber → JSNumber → Bool
  | some x, some y => x < y
  | _, _ => false

/-- The values a sort key can take: `undefined`, a number, a `Date` (its time
value) or a string. -/
inductive JSValue where
  | undefined : JSValue
  | number (n : JSNumber) : JSValue
  | date (t : JSNumber) : JSValue
  | string (s : JSString) : JSValue
deriving DecidableEq, Repr

namespace JSValue

/-- The test `a < b` as the comparator uses it, on two values of one kind.
Dates compare by time value; `undefined` converts to `NaN`. -/
def lt : JSValue → JSValue → Bool
  | number a, number b => numLt a b
  | date a, date b => numLt a b
  | string a, string b => strLt a b
  | _, _ => false

/-- The test `typeof v === "string"`. -/
def isString : JSValue → Bool
  | string _ => true
  | _ => false

/-- Whether the value is `NaN` or an invalid `Date`. -/
def isNaN : JSValue → Bool
  | number none => true
  | date none => true
  | _ => false

end JSValue

/-- A comparator is consistent on the elements of `l` (ECMAScript,
`Array.prototype.sort`): it splits them into classes that are totally ordered. -/
structure ConsistentOn {α : Type} (cmp : α → α → Int) (l : List α) : Prop where
  refl : ∀ a ∈ l, cmp a a = 0
  symm : ∀ a ∈ l, ∀ b ∈ l, cmp a b = 0 → cmp b a = 0
  flip : ∀ a ∈ l, ∀ b ∈ l, cmp a b < 0 ↔ 0 < cmp b a
  trans_eq : ∀ a ∈ l, ∀ b ∈ l, ∀ c ∈ l, cmp a b = 0 → cmp b c = 0 → cmp a c = 0
  trans_lt : ∀ a ∈ l, ∀ b ∈ l, ∀ c ∈ l, cmp a b < 0 → cmp b c < 0 → cmp a c < 0
  trans_gt : ∀ a ∈ l, ∀ b ∈ l, ∀ c ∈ l, 0 < cmp a b → 0 < cmp b c → 0 < cmp a c

/-- The built-ins the program calls whose results are fixed by the engine. -/
structure JSRuntime where
  /-- The method `String.prototype.toLowerCase`. -/
  toLowerCase : JSString → JSString
  /-- The time value of `new Date(s)`, `none` for an invalid date. -/
  dateParse : JSString → JSNumber
  /-- The function `Number.parseInt`, `none` for `NaN`. -/
  parseInt : JSString → JSNumber
  /-- The method `Array.prototype.sort` with a comparator, on an array of records. -/
  arraySort : (User → User → Int) → List User → List User

/-- What ECMAScript guarantees of `Array.prototype.sort`: it permutes the
array, and when the comparator is consistent the result is ordered by it and
elements that compare equal keep their order.  With a comparator that is not
consistent the order is left to the engine. -/
structure JSRuntime.Conforms (rt : JSRuntime) : Prop where
  sort_perm : ∀ cmp l, (rt.arraySort cmp l).Perm l
  sort_sorted : ∀ cmp l, ConsistentOn cmp l →
    (rt.arraySort cmp l).Pairwise (fun a b => cmp a b ≤ 0)
  sort_stable : ∀ cmp l, ConsistentOn cmp l → ∀ c : List User, c.Sublist l →
    (∀ a ∈ c, ∀ b ∈ c, cmp a b = 0) → c.Sublist (rt.arraySort cmp l)

/-- No element of the list is less than the one before it. -/
def NoDescent {α : Type} (cmp : α → α → Int) (l : List α) : Prop :=
  l.Chain' (fun a b => ¬ cmp b a < 0)

/-- Two properties of the sort of V8, the engine of Chrome and Node, that hold
whether the comparator is consistent or not.  The sort begins by finding the
run the array starts with, so an array in which no element is less than the
one before it is a single run and is returned as it is.  And it places an
element next to another only after comparing the two, so in the result no
element is less than the one before it, as long as the comparator never says
both `a < b` and `b < a`. -/
structure JSRuntime.KeepsRuns (rt : JSRuntime) : Prop where
  sort_run : ∀ cmp l, NoDescent cmp l → rt.arraySort cmp l = l
  sort_noDescent : ∀ cmp l, (∀ a b, cmp a b < 0 → ¬ cmp b a < 0) →
    NoDescent cmp (rt.arraySort cmp l)

/-! ## `validateUserData` -/

def msgName : JSString := js "Name must be at least 2 characters long"
def msgEmail : JSString := js "Please enter a valid email address"
def msgPhone : JSString := js "Phone number must contain 10-15 digits"
def msgEnroll : JSString := js "Enroll number must be at least 3 characters long"
def msgDateRequired : JSString := js "Date of admission is required"
def msgDateFuture : JSString := js "Date of admission cannot be in the future"

/-- The guard `!v || f(v)`: `f` is evaluated only on a non-empty string. -/
def falsyOr (v : Option JSString) (f : JSString → Bool) : Bool :=
  match v with
  | none => true
  | some s => s.isEmpty || f s

/-- The function `validateUserData` of `services.js`; `now` is the time value
of `new Date()`. -/
def validateUserData (rt : JSRuntime) (now : Int) (userData : UserData) : ValidationResult :=
  let errors : List JSString := []
  -- name
  let errors :=
    if falsyOr userData.name (fun name => decide ((trim name).length < 2)) then
      errors ++ [msgName]
    else errors
  -- email
  let errors :=
    if falsyOr userData.email (fun email => !emailRegex.test email) then
      errors ++ [msgEmail]
    else errors
  -- phone
  let errors :=
    if falsyOr userData.phone (fun phone => !phoneRegex.test (stripNonDigits phone)) then
      errors ++ [msgPhone]
    else errors
  -- enroll number
  let errors :=
    if falsyOr userData.enrollNumber (fun en => decide ((trim en).length < 3)) then
      errors ++ [msgEnroll]
    else errors
  -- date of admission
  let errors :=
    match userData.dateOfAdmission with
    | none => errors ++ [msgDateRequired]
    | some d =>
      if d.isEmpty then errors ++ [msgDateRequired]
      else
        let admissionDate := rt.dateParse d
        let today : JSNumber := some now
        if numLt today admissionDate then errors ++ [msgDateFuture] else errors
  { isValid := decide (errors.length = 0), errors := errors }

/-! ## `searchUsers` -/

/-- The function `searchUsers` of `services.js`. -/
def searchUsers (rt : JSRuntime) (users : List User) (searchTerm : JSString) : List User :=
  if searchTerm.isEmpty || trim searchTerm == [] then users
  else
    let term := trim (rt.toLowerCase searchTerm)
    users.filter (fun user =>
      includes (rt.toLowerCase user.name) term ||
      includes (rt.toLowerCase user.email) term ||
      includes user.phone term ||
      includes (rt.toLowerCase user.enrollNumber) term)

/-! ## `sortUsers` -/

/-- The property read `user[field]`.  A name other than the six fields reads
a value that is the same for every record (`undefined`, or a member inherited
from `Object.prototype`), on which both `<` and `>` are false. -/
def User.get (user : User) (field : JSString) : JSValue :=
  if field = js "id" then .string user.id
  else if field = js "name" then .string user.name
  else if field = js "email" then .string user.email
  else if field = js "phone" then .string user.phone
  else if field = js "enrollNumber" then .string user.enrollNumber
  else if field = js "dateOfAdmission" then .string user.dateOfAdmission
  else .undefined

/-- The call `Number.parseInt(v)`. -/
def parseIntOf (rt : JSRuntime) : JSValue → JSValue
  | .string s => .number (rt.parseInt s)
  | _ => .number none

/-- The expression `new Date(v)`. -/
def newDate (rt : JSRuntime) : JSValue → JSValue
  | .string s => .date (rt.dateParse s)
  | _ => .date none

/-- The call `v.toLowerCase()`. -/
def lowerOf (rt : JSRuntime) : JSValue → JSValue
  | .string s => .string (rt.toLowerCase s)
  | v => v

/-- The comparator passed to `sort` by `sortUsers`. -/
def compareUsers (rt : JSRuntime) (field direction : JSString) (a b : User) : Int :=
  let valueA := a.get field
  let valueB := b.get field
  let valueA := if field = js "id" then parseIntOf rt valueA else valueA
  let valueB := if field = js "id" then parseIntOf rt valueB else valueB
  let valueA := if field = js "dateOfAdmission" then newDate rt valueA else valueA
  let valueB := if field = js "dateOfAdmission" then newDate rt valueB else valueB
  let isStr := valueA.isString
  let valueA := if isStr then lowerOf rt valueA else valueA
  let valueB := if isStr then lowerOf rt valueB else valueB
  if direction = js "asc" then
    if valueA.lt valueB then -1 else if valueB.lt valueA then 1 else 0
  else
    if valueB.lt valueA then -1 else if valueA.lt valueB then 1 else 0

/-- What a call of `sortUsers` leaves behind: the argument array as it is
afterwards, and the array returned. -/
structure SortOutcome where
  users : List User
  result : List User

/-- The body of `sortUsers`: the argument is copied by `[...users]`, and the
copy is sorted in place and returned. -/
def sortUsersCall (rt : JSRuntime) (users : List User) (field direction : JSString) :
    SortOutcome :=
  let copy := users
  let copy := rt.arraySort (compareUsers rt field direction) copy
  { users := users, result := copy }

/-- The function `sortUsers` of `services.js`. -/
def sortUsers (rt : JSRuntime) (users : List User) (field direction : JSString) : List User :=
  (sortUsersCall rt users field direction).result

/-! ## `exportUsersToCSV` -/

/-- The function `exportUsersToCSV` of `services.js`. -/
def exportUsersToCSV (users : List User) : JSString :=
  let headers := [js "ID", js "Name", js "Email", js "Phone", js "Enroll Number",
    js "Date of Admission"]
  let csvContent := join (js "\n") (join (js ",") headers :: users.map (fun user =>
    join (js ",") [user.id, js "\"" ++ user.name ++ js "\"", user.email, user.phone,
      user.enrollNumber, user.dateOfAdmission]))
  csvContent

/-! ## Id allocation and the user form (`script.js`) -/

/-- The expression `x || 0` on a number: `NaN` and `0` both give `0`. -/
def orZero : JSNumber → Int
  | none => 0
  | some n => n

/-- The call `Math.max(...xs)` on a non-empty array of integers (the caller
returns before it when the array is empty). -/
def mathMax : List Int → Int
  | [] => 0
  | x :: xs => xs.foldl max x

/-- The function `initializeUserIds` of `services.js`.  `fetched` is what
`getAllUsers` resolves to, `none` when it throws. -/
def initializeUserIds (rt : JSRuntime) (fetched : Option (List User)) : Int :=
  match fetched with
  | none => 0
  | some users =>
    if users.length = 0 then 0
    else
      let maxId := mathMax (users.map (fun user => orZero (rt.parseInt user.id)))
      maxId + 1

/-- The module variable `nextUserId` of `script.js`. -/
structure AppState where
  nextUserId : Nat
deriving DecidableEq, Repr

/-- The state after the module is loaded: `let nextUserId = 0`. -/
def initialState : AppState := { nextUserId := 0 }

/-- What the `DOMContentLoaded` handler leaves behind: the module state, and
the value `initializeUserIds()` resolved to. -/
structure StartupOutcome where
  state : AppState
  initializeResult : Int

/-- The `DOMContentLoaded` handler: it awaits `initializeUserIds()` as a
statement, so the value is not stored; the calls that follow it do not touch
`nextUserId`. -/
def onDOMContentLoaded (rt : JSRuntime) (fetched : Option (List User)) (st : AppState) :
    StartupOutcome :=
  let result := initializeUserIds rt fetched
  { state := st, initializeResult := result }

/-- The method `Number.prototype.toString` on a non-negative integer. -/
def numberToString (n : Nat) : JSString := js (toString n)

/-- The values of the form controls read by the submit handler. -/
structure FormValues where
  userId : JSString
  fullName : JSString
  email : JSString
  phone : JSString
  enrollNumber : JSString
  dateOfAdmission : JSString
deriving DecidableEq, Repr

/-- A request of the submit handler to the store. -/
inductive StoreCall where
  | createUser (userData : UserData) : StoreCall
  | updateUser (userId : JSString) (userData : UserData) : StoreCall
deriving DecidableEq, Repr

/-- What one run of the submit handler does: the module state afterwards, the
store calls made, the text of the validation alert if one was shown, and the
route navigated to. -/
structure SubmitOutcome where
  state : AppState
  storeCalls : List StoreCall
  alert : Option JSString
  navigated : Option JSString
deriving DecidableEq, Repr

/-- The object the submit handler builds from the form controls. -/
def formUserData (form : FormValues) : UserData :=
  { name := some form.fullName, email := some form.email, phone := some form.phone,
    enrollNumber := some form.enrollNumber, dateOfAdmission := some form.dateOfAdmission }

/-- The submit handler installed by `setUpUserForm`.  `storeOk` tells whether
the store call, if one is made, succeeds (otherwise it throws and the handler
logs the error). -/
def submitHandler (rt : JSRuntime) (now : Int) (storeOk : Bool) (st : AppState)
    (form : FormValues) : SubmitOutcome :=
  let userId := form.userId
  let userData := formUserData form
  let validation := validateUserData rt now userData
  if !validation.isValid then
    { state := st, storeCalls := [],
      alert := some (join (js "<br>") (validation.errors.map (fun error => js "• " ++ error))),
      navigated := none }
  else
    let userData :=
      if userId.isEmpty then { userData with id := some (numberToString st.nextUserId) }
      else userData
    if !userId.isEmpty then
      { state := st, storeCalls := [.updateUser userId userData], alert := none,
        navigated := if storeOk then some (js "/users") else none }
    else
      { state := if storeOk then { nextUserId := st.nextUserId + 1 } else st,
        storeCalls := [.createUser userData], alert := none,
        navigated := if storeOk then some (js "/users") else none }

/-! ## A reference runtime

An engine restricted to what the examples need: ASCII case mapping, dates in
the form `YYYY-MM-DD`, `parseInt` on decimal and `0x` literals, and the sort
of V8 for arrays of fewer than 64 elements: it finds the run the array starts
with (reversing it when it descends strictly), then inserts each remaining
element into the sorted part by binary search. -/

/-- Lower-casing of one ASCII code unit. -/
def asciiLower (c : Nat) : Nat := if 0x41 ≤ c ∧ c ≤ 0x5A then c + 0x20 else c

/-- The value of a run of decimal digits. -/
def decimalValue (s : JSString) : Nat := s.foldl (fun n c => 10 * n + (c - 0x30)) 0

/-- Days from 1970-01-01 to the given day of the proleptic Gregorian calendar. -/
def daysFromCivil (y m d : Nat) : Int :=
  let y : Int := if m ≤ 2 then (y : Int) - 1 else y
  let era := y / 400
  let yoe := y - era * 400
  let mp : Int := if m > 2 then (m : Int) - 3 else (m : Int) + 9
  let doy := (153 * mp + 2) / 5 + (d : Int) - 1
  let doe := yoe * 365 + yoe / 4 - yoe / 100 + doy
  era * 146097 + doe - 719468

/-- The number of days of month `m` in year `y`. -/
def daysInMonth (y m : Nat) : Nat :=
  if m = 2 then (if y % 4 = 0 ∧ (y % 100 ≠ 0 ∨ y % 400 = 0) then 29 else 28)
  else if m = 4 ∨ m = 6 ∨ m = 9 ∨ m = 11 then 30 else 31

/-- The time value of a date-only string `YYYY-MM-DD` (midnight UTC), `none`
for anything else. -/
def isoDateParse (s : JSString) : JSNumber :=
  match s with
  | [y1, y2, y3, y4, 0x2D, m1, m2, 0x2D, d1, d2] =>
    if [y1, y2, y3, y4, m1, m2, d1, d2].all isDigit then
      let y := decimalValue [y1, y2, y3, y4]
      let m := decimalValue [m1, m2]
      let d := decimalValue [d1, d2]
      if 1 ≤ m ∧ m ≤ 12 ∧ 1 ≤ d ∧ d ≤ daysInMonth y m then
        some (daysFromCivil y m d * 86400000)
      else none
    else none
  | _ => none

/-- The value of a digit of radix 10 or 16, `none` for any other code unit. -/
def digitOfRadix (radix c : Nat) : Option Nat :=
  if 0x30 ≤ c ∧ c ≤ 0x39 then some (c - 0x30)
  else if radix = 16 ∧ 0x61 ≤ c ∧ c ≤ 0x66 then some (c - 0x61 + 10)
  else if radix = 16 ∧ 0x41 ≤ c ∧ c ≤ 0x46 then some (c - 0x41 + 10)
  else none

/-- The function `Number.parseInt` with no radix argument: leading white
space, a sign, an optional `0x`, then the longest run of digits. -/
def refParseInt (s : JSString) : JSNumber :=
  let s := s.dropWhile isWhiteSpace
  let negative := s.head? == some 0x2D
  let s := if s.head? == some 0x2D || s.head? == some 0x2B then s.tail else s
  let hex := match s with
    | 0x30 :: 0x78 :: _ => true
    | 0x30 :: 0x58 :: _ => true
    | _ => false
  let radix := if hex then 16 else 10
  let s := if hex then s.drop 2 else s
  let digits := s.takeWhile (fun c => (digitOfRadix radix c).isSome)
  if digits.isEmpty then none
  else
    let value := digits.foldl (fun n c => radix * n + (digitOfRadix radix c).getD 0) 0
    some (if negative then -(value : Int) else (value : Int))

/-- The loop of `CountAndMakeRun`: the elements after `prev` that continue the
run, and what is left of the array. -/
def takeRun {α : Type} (cmp : α → α → Int) (isDescending : Bool) : α → List α → List α × List α
  | _, [] => ([], [])
  | prev, cur :: rest =>
    let order := cmp cur prev
    if isDescending then
      if order ≥ 0 then ([], cur :: rest)
      else ((cur :: (takeRun cmp isDescending cur rest).1), (takeRun cmp isDescending cur rest).2)
    else
      if order < 0 then ([], cur :: rest)
      else ((cur :: (takeRun cmp isDescending cur rest).1), (takeRun cmp isDescending cur rest).2)

/-- The macro `CountAndMakeRun`: the run at the start of the array, made
ascending, and the rest of the array. -/
def countAndMakeRun {α : Type} (cmp : α → α → Int) : List α → List α × List α
  | [] => ([], [])
  | [a] => ([a], [])
  | a :: b :: rest =>
    let order := cmp b a
    let isDescending := decide (order < 0)
    let run := a :: b :: (takeRun cmp isDescending b rest).1
    (if isDescending then run.reverse else run, (takeRun cmp isDescending b rest).2)

/-- The binary search of `BinaryInsertionSort` and the insertion of `pivot`:
`w` is the window from `left` to `right`, its middle element is compared with
the pivot, and the search goes on in the half before it or after it.  The
first argument bounds the number of halvings. -/
def binaryInsert {α : Type} (cmp : α → α → Int) (pivot : α) : Nat → List α → List α
  | 0, w => pivot :: w
  | fuel + 1, w =>
    match w.drop (w.length / 2) with
    | [] => pivot :: w
    | mid :: after =>
      if cmp pivot mid < 0 then
        binaryInsert cmp pivot fuel (w.take (w.length / 2)) ++ mid :: after
      else
        w.take (w.length / 2) ++ mid :: binaryInsert cmp pivot fuel after

/-- The macro `BinaryInsertionSort`: the elements of `rest` are inserted one
after the other into the sorted part. -/
def binaryInsertionSort {α : Type} (cmp : α → α → Int) (sorted rest : List α) : List α :=
  rest.foldl (fun acc pivot => binaryInsert cmp pivot acc.length acc) sorted

/-- V8's sort as it runs on an array of fewer than 64 elements.  (From 64
elements on V8 cuts the array into such runs and merges them.) -/
def runInsertionSort {α : Type} (cmp : α → α → Int) (l : List α) : List α :=
  if l.length < 2 then l
  else binaryInsertionSort cmp (countAndMakeRun cmp l).1 (countAndMakeRun cmp l).2

/-- The reference runtime. -/
def refRuntime : JSRuntime where
  toLowerCase := fun s => s.map asciiLower
  dateParse := isoDateParse
  parseInt := refParseInt
  arraySort := runInsertionSort

/-! ## The rules of the specification -/

/-- The language of a regular expression: `Matches r s` when the whole of `s`
is matched by `r`. -/
inductive Matches : RegExp → JSString → Prop
  | eps : Matches .eps []
  | cls {p : Nat → Bool} {c : Nat} : p c = true → Matches (.cls p) [c]
  | seq {r q : RegExp} {s t : JSString} :
      Matches r s → Matches q t → Matches (.seq r q) (s ++ t)
  | altL {r q : RegExp} {s : JSString} : Matches r s → Matches (.alt r q) s
  | altR {r q : RegExp} {s : JSString} : Matches q s → Matches (.alt r q) s
  | starNil {r : RegExp} : Matches (.star r) []
  | starCons {r : RegExp} {s t : JSString} :
      Matches r s → Matches (.star r) t → Matches (.star r) (s ++ t)

/-- Rule 1: the name has at least 2 characters after trimming. -/
def NameRule (u : UserData) : Prop := ∃ s, u.name = some s ∧ 2 ≤ (trim s).length

/-- Rule 2: the email matches `^[^\s@]+@[^\s@]+\.[^\s@]+$`. -/
def EmailRule (u : UserData) : Prop := ∃ s, u.email = some s ∧ Matches emailRegex s

/-- Rule 3: the digit-only content of the phone has between 10 and 15 digits. -/
def PhoneRule (u : UserData) : Prop :=
  ∃ s, u.phone = some s ∧ 10 ≤ (s.filter isDigit).length ∧ (s.filter isDigit).length ≤ 15

/-- Rule 4: the enroll number has at least 3 characters after trimming. -/
def EnrollRule (u : UserData) : Prop := ∃ s, u.enrollNumber = some s ∧ 3 ≤ (trim s).length

/-- The date of admission is present: the field holds a non-empty string. -/
def DatePresent (u : UserData) : Prop := ∃ d, u.dateOfAdmission = some d ∧ d ≠ []

/-- The date of admission parses to a date strictly after the current time. -/
def DateFuture (rt : JSRuntime) (now : Int) (u : UserData) : Prop :=
  ∃ d t, u.dateOfAdmission = some d ∧ rt.dateParse d = some t ∧ now < t

/-- Rule 5: the date of admission is present and its parsed date is not
strictly after the current time. -/
def DateRule (rt : JSRuntime) (now : Int) (u : UserData) : Prop :=
  DatePresent u ∧ ¬ DateFuture rt now u

/-- The messages one rule with a single message contributes. -/
def ruleErrors (fails : Bool) (msg : JSString) : List JSString := if fails then [msg] else []

/-- The messages the date rule contributes. -/
def dateErrors (rt : JSRuntime) (now : Int) : Option JSString → List JSString
  | none => [msgDateRequired]
  | some d =>
    if d.isEmpty then [msgDateRequired]
    else if numLt (some now) (rt.dateParse d) then [msgDateFuture] else []

/-- The error list as the concatenation of what each rule contributes, in the
order of the rules. -/
def errorsByRule (rt : JSRuntime) (now : Int) (u : UserData) : List JSString :=
  ruleErrors (falsyOr u.name (fun name => decide ((trim name).length < 2))) msgName ++
  ruleErrors (falsyOr u.email (fun email => !emailRegex.test email)) msgEmail ++
  ruleErrors (falsyOr u.phone (fun phone => !phoneRegex.test (stripNonDigits phone))) msgPhone ++
  ruleErrors (falsyOr u.enrollNumber (fun en => decide ((trim en).length < 3))) msgEnroll ++
  dateErrors rt now u.dateOfAdmission

/-- A candidate with no name, email, phone or enroll number, whose date of
admission is the first day of 2999. -/
def onlyFutureDate : UserData := { dateOfAdmission := some (js "2999-01-01") }

/-- The five messages listed for a record that violates every rule. -/
def fiveMessages : List JSString :=
  [msgName, msgEmail, msgPhone, msgEnroll, msgDateRequired]

/-- The key the comparator compares for a record: the field after its
coercions (an integer for `id`, a date for `dateOfAdmission`, the lower-cased
string for the other fields). -/
def sortKey (rt : JSRuntime) (field : JSString) (u : User) : JSValue :=
  if field = js "id" then .number (rt.parseInt u.id)
  else if field = js "dateOfAdmission" then .date (rt.dateParse u.dateOfAdmission)
  else if field = js "name" then .string (rt.toLowerCase u.name)
  else if field = js "email" then .string (rt.toLowerCase u.email)
  else if field = js "phone" then .string (rt.toLowerCase u.phone)
  else if field = js "enrollNumber" then .string (rt.toLowerCase u.enrollNumber)
  else .undefined

/-- The keys of the records are comparable: no id that fails to parse as an
integer when sorting by `id`, no unparsable date when sorting by
`dateOfAdmission`. -/
def KeysComparable (rt : JSRuntime) (field : JSString) (users : List User) : Prop :=
  ∀ u ∈ users, (sortKey rt field u).isNaN = false

/-- The three-way comparison `x < y ? -1 : x > y ? 1 : 0`. -/
def threeWay (x y : JSValue) : Int := if x.lt y then -1 else if y.lt x then 1 else 0

/-- The kind of a value: undefined, number, date or string. -/
def JSValue.kind : JSValue → Nat
  | .undefined => 0
  | .number _ => 1
  | .date _ => 2
  | .string _ => 3

/-- The header line of the CSV text. -/
def headerLine : JSString := js "ID,Name,Email,Phone,Enroll Number,Date of Admission"

/-- The CSV line of one record: the six fields separated by commas, the name
between double quotes and nothing escaped. -/
def recordLine (u : User) : JSString :=
  u.id ++ [0x2C] ++ [0x22] ++ u.name ++ [0x22] ++ [0x2C] ++ u.email ++ [0x2C] ++ u.phone ++
    [0x2C] ++ u.enrollNumber ++ [0x2C] ++ u.dateOfAdmission

/-- The record of the CSV example. -/
def csvExample : User :=
  { id := js "1", name := js "A,B", email := js "a@b.com", phone := js "1234567890",
    enrollNumber := js "E1", dateOfAdmission := js "2024-01-01" }

/-- A well-formed form for a new record (no id), admitted on 2024-01-01. -/
def newStudentForm : FormValues :=
  { userId := [], fullName := js "Ana Li", email := js "ana@x.co", phone := js "1234567890",
    enrollNumber := js "E001", dateOfAdmission := js "2024-01-01" }

/-- The candidate of `newStudentForm` with the date moved to 2024-01-02. -/
def admittedTomorrow : UserData :=
  { name := some (js "Ana Li"), email := some (js "ana@x.co"),
    phone := some (js "1234567890"), enrollNumber := some (js "E001"),
    dateOfAdmission := some (js "2024-01-02") }

/-- The time value of 2024-01-01T00:00:00Z. -/
def newYear2024 : Int := 1704067200000

/-- A stored record with the given id and name. -/
def student (id name : String) : User :=
  { id := js id, name := js name, email := js "s@x.co", phone := js "1234567890",
    enrollNumber := js "E001", dateOfAdmission := js "2023-09-01" }

/-- A store holding three records with ids 0, 1 and 2. -/
def storeZeroToTwo : List User := [student "0" "Ana", student "1" "Bob", student "2" "Cy"]

/-- Three records out of order by id and by name. -/
def unsortedStore : List User := [student "2" "Bob", student "10" "ana", student "1" "Cy"]

/-- Two records whose names differ only by case. -/
def caseTwins : List User := [student "1" "Ana", student "2" "ana"]

/-- Six records, one of them with an id that is not a number. -/
def nanIdStore : List User :=
  [student "5" "Eve", student "4" "Dan", student "3" "Cy", student "1" "Ana",
    student "x" "Xi", student "2" "Bob"]

/-- The candidate of `newStudentForm` with the text "soon" as date of admission. -/
def admittedSoon : UserData :=
  { name := some (js "Ana Li"), email := some (js "ana@x.co"),
    phone := some (js "1234567890"), enrollNumber := some (js "E001"),
    dateOfAdmission := some (js "soon") }

/-! ## The regular-expression engine computes the language -/

theorem matches_none_iff (x : JSString) : Matches .none x ↔ False := by
  constructor
  · intro h; cases h
  · intro h; exact h.elim

theorem matches_eps_iff (x : JSString) : Matches .eps x ↔ x = [] := by
  constructor
  · intro h; cases h; rfl
  · rintro rfl; exact .eps

theorem matches_cls_iff (p : Nat → Bool) (x : JSString) :
    Matches (.cls p) x ↔ ∃ c, x = [c] ∧ p c = true := by
  constructor
  · intro h; cases h with
    | cls hc => exact ⟨_, rfl, hc⟩
  · rintro ⟨c, rfl, hc⟩; exact .cls hc

theorem matches_seq_iff (r q : RegExp) (x : JSString) :
    Matches (.seq r q) x ↔ ∃ s t, x = s ++ t ∧ Matches r s ∧ Matches q t := by
  constructor
  · intro h; cases h with
    | seq h1 h2 => exact ⟨_, _, rfl, h1, h2⟩
  · rintro ⟨s, t, rfl, h1, h2⟩; exact .seq h1 h2

theorem matches_alt_iff (r q : RegExp) (x : JSString) :
    Matches (.alt r q) x ↔ Matches r x ∨ Matches q x := by
  constructor
  · intro h; cases h with
    | altL h => exact .inl h
    | altR h => exact .inr h
  · rintro (h | h)
    · exact .altL h
    · exact .altR h

theorem matches_star_cons_aux {R : RegExp} {y : JSString} (h : Matches R y) :
    ∀ (r : RegExp) (c : Nat) (x : JSString), R = .star r → y = c :: x →
      ∃ s t, x = s ++ t ∧ Matches r (c :: s) ∧ Matches (.star r) t := by
  induction h with
  | eps => intro r c x hR; cases hR
  | cls _ => intro r c x hR; cases hR
  | seq _ _ _ _ => intro r c x hR; cases hR
  | altL _ _ => intro r c x hR; cases hR
  | altR _ _ => intro r c x hR; cases hR
  | starNil => intro r c x _ hy; cases hy
  | @starCons r0 s t h1 h2 _ ih2 =>
    intro r c x hR hy
    cases hR
    cases s with
    | nil => exact ih2 _ c x rfl (by simpa using hy)
    | cons a s1 =>
      simp only [List.cons_append, List.cons.injEq] at hy
      obtain ⟨rfl, rfl⟩ := hy
      exact ⟨s1, t, rfl, h1, h2⟩

theorem matches_star_cons_iff (r : RegExp) (c : Nat) (x : JSString) :
    Matches (.star r) (c :: x) ↔
      ∃ s t, x = s ++ t ∧ Matches r (c :: s) ∧ Matches (.star r) t := by
  constructor
  · intro h; exact matches_star_cons_aux h r c x rfl rfl
  · rintro ⟨s, t, rfl, h1, h2⟩
    exact .starCons h1 h2

theorem nullable_iff (r : RegExp) : r.nullable = true ↔ Matches r [] := by
  induction r with
  | none => simp [RegExp.nullable, matches_none_iff]
  | eps => simp [RegExp.nullable, matches_eps_iff]
  | cls p => simp [RegExp.nullable, matches_cls_iff]
  | seq r q ihr ihq =>
    simp only [RegExp.nullable, Bool.and_eq_true, ihr, ihq, matches_seq_iff]
    constructor
    · rintro ⟨h1, h2⟩; exact ⟨[], [], rfl, h1, h2⟩
    · rintro ⟨s, t, hst, h1, h2⟩
      have hs : s = [] := (List.append_eq_nil.mp hst.symm).1
      have ht : t = [] := (List.append_eq_nil.mp hst.symm).2
      subst hs; subst ht; exact ⟨h1, h2⟩
  | alt r q ihr ihq => simp [RegExp.nullable, ihr, ihq, matches_alt_iff]
  | star r _ => simp only [RegExp.nullable, true_iff]; exact .starNil

theorem deriv_iff (r : RegExp) : ∀ (c : Nat) (x : JSString),
    Matches (r.deriv c) x ↔ Matches r (c :: x) := by
  induction r with
  | none => intro c x; simp [RegExp.deriv, matches_none_iff]
  | eps => intro c x; simp [RegExp.deriv, matches_none_iff, matches_eps_iff]
  | cls p =>
    intro c x
    cases hp : p c with
    | true =>
      simp only [RegExp.deriv, hp, if_true, matches_eps_iff, matches_cls_iff]
      constructor
      · rintro rfl; exact ⟨c, rfl, hp⟩
      · rintro ⟨d, hd, _⟩
        simp only [List.cons.injEq] at hd
        exact hd.2
    | false =>
      simp only [RegExp.deriv, hp, Bool.false_eq_true, if_false, matches_none_iff,
        matches_cls_iff, false_iff]
      rintro ⟨d, hd, hpd⟩
      simp only [List.cons.injEq] at hd
      rw [← hd.1, hp] at hpd
      cases hpd
  | seq r q ihr ihq =>
    intro c x
    have key : Matches (.seq r q) (c :: x) ↔
        (∃ s t, x = s ++ t ∧ Matches r (c :: s) ∧ Matches q t) ∨
          (Matches r [] ∧ Matches q (c :: x)) := by
      rw [matches_seq_iff]
      constructor
      · rintro ⟨s, t, hst, h1, h2⟩
        cases s with
        | nil => right; simp only [List.nil_append] at hst; subst hst; exact ⟨h1, h2⟩
        | cons a s1 =>
          left
          simp only [List.cons_append, List.cons.injEq] at hst
          obtain ⟨rfl, rfl⟩ := hst
          exact ⟨s1, t, rfl, h1, h2⟩
      · rintro (⟨s, t, rfl, h1, h2⟩ | ⟨h1, h2⟩)
        · exact ⟨c :: s, t, rfl, h1, h2⟩
        · exact ⟨[], c :: x, rfl, h1, h2⟩
    rw [key]
    cases hn : r.nullable with
    | true =>
      have hn2 := (nullable_iff r).mp hn
      simp only [RegExp.deriv, hn, if_true, matches_alt_iff, matches_seq_iff, ihr, ihq]
      constructor
      · rintro (h | h)
        · exact .inl h
        · exact .inr ⟨hn2, h⟩
      · rintro (h | ⟨_, h⟩)
        · exact .inl h
        · exact .inr h
    | false =>
      have hn2 : ¬ Matches r [] := fun h => by
        have := (nullable_iff r).mpr h
        rw [hn] at this
        cases this
      simp only [RegExp.deriv, hn, Bool.false_eq_true, if_false, matches_seq_iff, ihr]
      constructor
      · intro h; exact .inl h
      · rintro (h | ⟨h, _⟩)
        · exact h
        · exact (hn2 h).elim
  | alt r q ihr ihq => intro c x; simp [RegExp.deriv, matches_alt_iff, ihr, ihq]
  | star r ih =>
    intro c x
    simp only [RegExp.deriv, matches_seq_iff, ih, matches_star_cons_iff]

/-- The engine accepts a string exactly when it is in the language of the
expression. -/
theorem test_iff (s : JSString) : ∀ r : RegExp, r.test s = true ↔ Matches r s := by
  induction s with
  | nil => intro r; simpa [RegExp.test] using nullable_iff r
  | cons c s ih => intro r; rw [RegExp.test, ih, deriv_iff]

theorem matches_times_cls (p : Nat → Bool) : ∀ (n : Nat) (x : JSString),
    Matches (RegExp.times (.cls p) n) x ↔ x.length = n ∧ ∀ c ∈ x, p c = true := by
  intro n
  induction n with
  | zero =>
    intro x
    simp only [RegExp.times, matches_eps_iff]
    constructor
    · rintro rfl; simp
    · rintro ⟨h, _⟩; exact List.length_eq_zero.mp h
  | succ n ih =>
    intro x
    simp only [RegExp.times, matches_seq_iff, matches_cls_iff, ih]
    constructor
    · rintro ⟨s, t, rfl, ⟨c, rfl, hc⟩, hlen, hall⟩
      refine ⟨by simp [hlen], ?_⟩
      intro d hd
      simp only [List.singleton_append, List.mem_cons] at hd
      rcases hd with rfl | hd
      · exact hc
      · exact hall d hd
    · rintro ⟨hlen, hall⟩
      cases x with
      | nil => simp at hlen
      | cons c t =>
        refine ⟨[c], t, rfl, ⟨c, rfl, hall c (List.mem_cons_self _ _)⟩, ?_, ?_⟩
        · simpa using hlen
        · intro d hd; exact hall d (List.mem_cons_of_mem _ hd)

theorem matches_upTo_cls (p : Nat → Bool) : ∀ (n : Nat) (x : JSString),
    Matches (RegExp.upTo (.cls p) n) x ↔ x.length ≤ n ∧ ∀ c ∈ x, p c = true := by
  intro n
  induction n with
  | zero =>
    intro x
    simp only [RegExp.upTo, matches_eps_iff]
    constructor
    · rintro rfl; simp
    · rintro ⟨h, _⟩; exact List.length_eq_zero.mp (Nat.le_zero.mp h)
  | succ n ih =>
    intro x
    simp only [RegExp.upTo, RegExp.opt, matches_alt_iff, matches_eps_iff, matches_seq_iff,
      matches_cls_iff, ih]
    constructor
    · rintro (rfl | ⟨s, t, rfl, ⟨c, rfl, hc⟩, hlen, hall⟩)
      · simp
      · refine ⟨by simp; omega, ?_⟩
        intro d hd
        simp only [List.singleton_append, List.mem_cons] at hd
        rcases hd with rfl | hd
        · exact hc
        · exact hall d hd
    · rintro ⟨hlen, hall⟩
      cases x with
      | nil => exact .inl rfl
      | cons c t =>
        right
        refine ⟨[c], t, rfl, ⟨c, rfl, hall c (List.mem_cons_self _ _)⟩, ?_, ?_⟩
        · simpa using hlen
        · intro d hd; exact hall d (List.mem_cons_of_mem _ hd)

theorem matches_range_cls (p : Nat → Bool) (lo hi : Nat) (hle : lo ≤ hi) (x : JSString) :
    Matches (RegExp.range (.cls p) lo hi) x ↔
      lo ≤ x.length ∧ x.length ≤ hi ∧ ∀ c ∈ x, p c = true := by
  simp only [RegExp.range, matches_seq_iff, matches_times_cls, matches_upTo_cls]
  constructor
  · rintro ⟨s, t, rfl, ⟨hs, hsall⟩, ht, htall⟩
    refine ⟨by simp; omega, by simp; omega, ?_⟩
    intro c hc
    rcases List.mem_append.mp hc with h | h
    · exact hsall c h
    · exact htall c h
  · rintro ⟨h1, h2, hall⟩
    refine ⟨x.take lo, x.drop lo, (List.take_append_drop lo x).symm, ⟨?_, ?_⟩, ?_, ?_⟩
    · simp; omega
    · intro c hc; exact hall c (List.mem_of_mem_take hc)
    · simp; omega
    · intro c hc; exact hall c (List.mem_of_mem_drop hc)

theorem matches_star_cls_aux {R : RegExp} {y : JSString} (h : Matches R y) :
    ∀ p : Nat → Bool, R = .star (.cls p) → ∀ c ∈ y, p c = true := by
  induction h with
  | eps => intro p hR; cases hR
  | cls _ => intro p hR; cases hR
  | seq _ _ _ _ => intro p hR; cases hR
  | altL _ _ => intro p hR; cases hR
  | altR _ _ => intro p hR; cases hR
  | starNil => intro p _ c hc; cases hc
  | starCons h1 _ _ ih2 =>
    intro p hR c hc
    cases hR
    rcases List.mem_append.mp hc with h | h
    · obtain ⟨d, rfl, hd⟩ := (matches_cls_iff p _).mp h1
      simp only [List.mem_singleton] at h
      subst h
      exact hd
    · exact ih2 p rfl c h

theorem matches_star_cls (p : Nat → Bool) (x : JSString) :
    Matches (.star (.cls p)) x ↔ ∀ c ∈ x, p c = true := by
  constructor
  · intro h; exact matches_star_cls_aux h p rfl
  · intro hall
    induction x with
    | nil => exact .starNil
    | cons c t ih =>
      have h1 : Matches (.cls p) [c] := .cls (hall c (List.mem_cons_self _ _))
      have h2 := ih (fun d hd => hall d (List.mem_cons_of_mem _ hd))
      exact .starCons h1 h2

theorem matches_plus_cls (p : Nat → Bool) (x : JSString) :
    Matches (RegExp.plus (.cls p)) x ↔ x ≠ [] ∧ ∀ c ∈ x, p c = true := by
  simp only [RegExp.plus, matches_seq_iff, matches_cls_iff, matches_star_cls]
  constructor
  · rintro ⟨s, t, rfl, ⟨c, rfl, hc⟩, hall⟩
    refine ⟨by simp, ?_⟩
    intro d hd
    simp only [List.singleton_append, List.mem_cons] at hd
    rcases hd with rfl | hd
    · exact hc
    · exact hall d hd
  · rintro ⟨hne, hall⟩
    cases x with
    | nil => exact (hne rfl).elim
    | cons c t =>
      exact ⟨[c], t, rfl, ⟨c, rfl, hall c (List.mem_cons_self _ _)⟩,
        fun d hd => hall d (List.mem_cons_of_mem _ hd)⟩

/-- The email expression accepts exactly the strings `a@b.c` in which `a`, `b`
and `c` are non-empty and contain neither white space nor `@`. -/
theorem matches_emailRegex_iff (x : JSString) :
    Matches emailRegex x ↔
      ∃ a b c : JSString, x = a ++ [0x40] ++ b ++ [0x2E] ++ c ∧
        a ≠ [] ∧ b ≠ [] ∧ c ≠ [] ∧
        (∀ u ∈ a, notSpaceAt u = true) ∧ (∀ u ∈ b, notSpaceAt u = true) ∧
        (∀ u ∈ c, notSpaceAt u = true) := by
  simp only [emailRegex, matches_seq_iff, matches_plus_cls, matches_cls_iff]
  constructor
  · rintro ⟨a, t1, rfl, ⟨ha, haall⟩, s2, t2, rfl, ⟨d1, rfl, hd1⟩, b, t3, rfl, ⟨hb, hball⟩,
      s4, c, rfl, ⟨d2, rfl, hd2⟩, hc, hcall⟩
    have e1 : d1 = 0x40 := by simpa using hd1
    have e2 : d2 = 0x2E := by simpa using hd2
    subst e1; subst e2
    exact ⟨a, b, c, by simp, ha, hb, hc, haall, hball, hcall⟩
  · rintro ⟨a, b, c, rfl, ha, hb, hc, haall, hball, hcall⟩
    exact ⟨a, [0x40] ++ (b ++ ([0x2E] ++ c)), by simp, ⟨ha, haall⟩, [0x40], b ++ ([0x2E] ++ c),
      rfl, ⟨0x40, rfl, by simp⟩, b, [0x2E] ++ c, rfl, ⟨hb, hball⟩, [0x2E], c, rfl,
      ⟨0x2E, rfl, by simp⟩, hc, hcall⟩

/-- On the digits of a phone, the phone expression checks the length only. -/
theorem phoneRegex_test_stripNonDigits (s : JSString) :
    phoneRegex.test (stripNonDigits s) = true ↔
      10 ≤ (s.filter isDigit).length ∧ (s.filter isDigit).length ≤ 15 := by
  rw [test_iff, phoneRegex, matches_range_cls _ _ _ (by decide), stripNonDigits]
  constructor
  · rintro ⟨h1, h2, _⟩; exact ⟨h1, h2⟩
  · rintro ⟨h1, h2⟩
    exact ⟨h1, h2, fun c hc => (List.mem_filter.mp hc).2⟩

/-! ## The validator -/

theorem validateUserData_errors (rt : JSRuntime) (now : Int) (u : UserData) :
    (validateUserData rt now u).errors = errorsByRule rt now u := by
  simp only [validateUserData, errorsByRule, ruleErrors, dateErrors]
  generalize falsyOr u.name _ = g1
  generalize falsyOr u.email _ = g2
  generalize falsyOr u.phone _ = g3
  generalize falsyOr u.enrollNumber _ = g4
  cases g1 <;> cases g2 <;> cases g3 <;> cases g4 <;> cases u.dateOfAdmission <;>
    simp <;> split_ifs <;> simp

theorem validateUserData_isValid (rt : JSRuntime) (now : Int) (u : UserData) :
    (validateUserData rt now u).isValid = true ↔ (validateUserData rt now u).errors = [] := by
  have h : (validateUserData rt now u).isValid =
      decide ((validateUserData rt now u).errors.length = 0) := rfl
  rw [h, decide_eq_true_iff, List.length_eq_zero]

theorem name_guard_iff (u : UserData) :
    falsyOr u.name (fun name => decide ((trim name).length < 2)) = false ↔ NameRule u := by
  unfold NameRule
  cases h : u.name with
  | none => simp [falsyOr]
  | some s =>
    cases s with
    | nil => simp [falsyOr, trim]
    | cons c t => simp [falsyOr]

theorem enroll_guard_iff (u : UserData) :
    falsyOr u.enrollNumber (fun en => decide ((trim en).length < 3)) = false ↔ EnrollRule u := by
  unfold EnrollRule
  cases h : u.enrollNumber with
  | none => simp [falsyOr]
  | some s =>
    cases s with
    | nil => simp [falsyOr, trim]
    | cons c t => simp [falsyOr]

theorem email_guard_iff (u : UserData) :
    falsyOr u.email (fun email => !emailRegex.test email) = false ↔ EmailRule u := by
  unfold EmailRule
  cases h : u.email with
  | none => simp [falsyOr]
  | some s =>
    cases s with
    | nil =>
      have h0 : ¬ Matches emailRegex [] := by
        rw [← test_iff]; decide
      simp [falsyOr, h0]
    | cons c t => simp [falsyOr, test_iff]

theorem phone_guard_iff (u : UserData) :
    falsyOr u.phone (fun phone => !phoneRegex.test (stripNonDigits phone)) = false ↔
      PhoneRule u := by
  unfold PhoneRule
  cases h : u.phone with
  | none => simp [falsyOr]
  | some s =>
    cases s with
    | nil => simp [falsyOr]
    | cons c t =>
      have := phoneRegex_test_stripNonDigits (c :: t)
      simp only [falsyOr, List.isEmpty_cons, Bool.false_or, Bool.not_eq_false', this,
        Option.some.injEq, exists_eq_left']

theorem dateErrors_eq_nil_iff (rt : JSRuntime) (now : Int) (u : UserData) :
    dateErrors rt now u.dateOfAdmission = [] ↔ DateRule rt now u := by
  unfold DateRule DatePresent DateFuture
  cases h : u.dateOfAdmission with
  | none => simp [dateErrors]
  | some d =>
    cases d with
    | nil => simp [dateErrors]
    | cons c t =>
      cases hp : rt.dateParse (c :: t) with
      | none => simp [dateErrors, numLt, hp]
      | some v => simp [dateErrors, numLt, hp]

theorem ruleErrors_eq_nil_iff (g : Bool) (m : JSString) : ruleErrors g m = [] ↔ g = false := by
  cases g <;> simp [ruleErrors]

theorem mem_ruleErrors_iff (g : Bool) (m x : JSString) :
    x ∈ ruleErrors g m ↔ g = true ∧ x = m := by
  cases g <;> simp [ruleErrors]

theorem mem_dateErrors_iff (rt : JSRuntime) (now : Int) (u : UserData) (x : JSString) :
    x ∈ dateErrors rt now u.dateOfAdmission ↔
      (¬ DatePresent u ∧ x = msgDateRequired) ∨
        (DatePresent u ∧ DateFuture rt now u ∧ x = msgDateFuture) := by
  unfold DatePresent DateFuture
  cases h : u.dateOfAdmission with
  | none => simp [dateErrors]
  | some d =>
    cases d with
    | nil => simp [dateErrors]
    | cons c t =>
      cases hp : rt.dateParse (c :: t) with
      | none => simp [dateErrors, numLt, hp]
      | some v =>
        by_cases hv : now < v
        · simp [dateErrors, numLt, hp, hv]
        · simp [dateErrors, numLt, hp, hv]

theorem dateErrors_sublist (rt : JSRuntime) (now : Int) (d : Option JSString) :
    (dateErrors rt now d).Sublist [msgDateRequired, msgDateFuture] := by
  cases d with
  | none => simp [dateErrors]
  | some d =>
    simp only [dateErrors]
    split_ifs <;> simp

theorem ruleErrors_sublist (g : Bool) (m : JSString) : (ruleErrors g m).Sublist [m] := by
  cases g <;> simp [ruleErrors]

/-- C1. For every candidate and every current time, `isValid` is true exactly
when the five field rules all pass (name of at least 2 code units after
trimming, email in the language of the email expression, 10 to 15 digits in
the phone, enroll number of at least 3 code units after trimming, date of
admission present and not strictly after the current time), and exactly when
the error list is empty. -/
theorem validateUserData_isValid_iff_rules (rt : JSRuntime) (now : Int) (u : UserData) :
    ((validateUserData rt now u).isValid = true ↔
      NameRule u ∧ EmailRule u ∧ PhoneRule u ∧ EnrollRule u ∧ DateRule rt now u) ∧
    ((validateUserData rt now u).isValid = true ↔ (validateUserData rt now u).errors = []) := by
  refine ⟨?_, validateUserData_isValid rt now u⟩
  rw [validateUserData_isValid, validateUserData_errors, errorsByRule]
  simp only [List.append_eq_nil, ruleErrors_eq_nil_iff, name_guard_iff, email_guard_iff,
    phone_guard_iff, enroll_guard_iff, dateErrors_eq_nil_iff, and_assoc]

/-- C2, the statement as written fails: the candidate whose only field is a
date of admission in the future violates all five rules, and its error list
is not the list of five messages ending in "Date of admission is required". -/
theorem all_rules_violated_not_fiveMessages :
    ¬ NameRule onlyFutureDate ∧ ¬ EmailRule onlyFutureDate ∧ ¬ PhoneRule onlyFutureDate ∧
    ¬ EnrollRule onlyFutureDate ∧ ¬ DateRule refRuntime 0 onlyFutureDate ∧
    (validateUserData refRuntime 0 onlyFutureDate).errors =
      [msgName, msgEmail, msgPhone, msgEnroll, msgDateFuture] ∧
    (validateUserData refRuntime 0 onlyFutureDate).errors ≠ fiveMessages := by
  refine ⟨?_, ?_, ?_, ?_, ?_, ?_, ?_⟩
  · rw [← name_guard_iff]; decide
  · rw [← email_guard_iff]; decide
  · rw [← phone_guard_iff]; decide
  · rw [← enroll_guard_iff]; decide
  · rw [← dateErrors_eq_nil_iff]; decide
  · decide
  · decide

/-- C2, amended. The validator does not stop at the first failure: each of the
four single-message rules contributes its message exactly when it is violated;
"Date of admission is required" appears exactly when the date is absent or
empty and "Date of admission cannot be in the future" exactly when it is
present and parses to a date strictly after the current time; the messages
appear in the fixed order of the rules; a record violating all five rules
yields exactly five messages, the fifth being the date message that applies;
and the record with every field absent yields the five messages ending in
"Date of admission is required". -/
theorem validateUserData_collects_all_errors (rt : JSRuntime) (now : Int) (u : UserData) :
    (msgName ∈ (validateUserData rt now u).errors ↔ ¬ NameRule u) ∧
    (msgEmail ∈ (validateUserData rt now u).errors ↔ ¬ EmailRule u) ∧
    (msgPhone ∈ (validateUserData rt now u).errors ↔ ¬ PhoneRule u) ∧
    (msgEnroll ∈ (validateUserData rt now u).errors ↔ ¬ EnrollRule u) ∧
    (msgDateRequired ∈ (validateUserData rt now u).errors ↔ ¬ DatePresent u) ∧
    (msgDateFuture ∈ (validateUserData rt now u).errors ↔
      DatePresent u ∧ DateFuture rt now u) ∧
    (validateUserData rt now u).errors.Sublist
      [msgName, msgEmail, msgPhone, msgEnroll, msgDateRequired, msgDateFuture] ∧
    (¬ NameRule u ∧ ¬ EmailRule u ∧ ¬ PhoneRule u ∧ ¬ EnrollRule u ∧ ¬ DateRule rt now u →
      ((validateUserData rt now u).errors =
          [msgName, msgEmail, msgPhone, msgEnroll, msgDateRequired] ∧ ¬ DatePresent u) ∨
      ((validateUserData rt now u).errors =
          [msgName, msgEmail, msgPhone, msgEnroll, msgDateFuture] ∧ DatePresent u)) ∧
    validateUserData rt now {} = { isValid := false, errors := fiveMessages } := by
  have hN : msgName ≠ msgEmail ∧ msgName ≠ msgPhone ∧ msgName ≠ msgEnroll ∧
      msgName ≠ msgDateRequired ∧ msgName ≠ msgDateFuture := by decide
  have hE : msgEmail ≠ msgName ∧ msgEmail ≠ msgPhone ∧ msgEmail ≠ msgEnroll ∧
      msgEmail ≠ msgDateRequired ∧ msgEmail ≠ msgDateFuture := by decide
  have hP : msgPhone ≠ msgName ∧ msgPhone ≠ msgEmail ∧ msgPhone ≠ msgEnroll ∧
      msgPhone ≠ msgDateRequired ∧ msgPhone ≠ msgDateFuture := by decide
  have hR : msgEnroll ≠ msgName ∧ msgEnroll ≠ msgEmail ∧ msgEnroll ≠ msgPhone ∧
      msgEnroll ≠ msgDateRequired ∧ msgEnroll ≠ msgDateFuture := by decide
  have hD : msgDateRequired ≠ msgName ∧ msgDateRequired ≠ msgEmail ∧
      msgDateRequired ≠ msgPhone ∧ msgDateRequired ≠ msgEnroll ∧
      msgDateRequired ≠ msgDateFuture := by decide
  have hF : msgDateFuture ≠ msgName ∧ msgDateFuture ≠ msgEmail ∧
      msgDateFuture ≠ msgPhone ∧ msgDateFuture ≠ msgEnroll ∧
      msgDateFuture ≠ msgDateRequired := by decide
  have hmem : ∀ x, x ∈ (validateUserData rt now u).errors ↔
      (¬ NameRule u ∧ x = msgName) ∨ (¬ EmailRule u ∧ x = msgEmail) ∨
      (¬ PhoneRule u ∧ x = msgPhone) ∨ (¬ EnrollRule u ∧ x = msgEnroll) ∨
      (¬ DatePresent u ∧ x = msgDateRequired) ∨
      (DatePresent u ∧ DateFuture rt now u ∧ x = msgDateFuture) := by
    intro x
    rw [validateUserData_errors, errorsByRule]
    simp only [List.mem_append, mem_ruleErrors_iff, mem_dateErrors_iff, ← name_guard_iff,
      ← email_guard_iff, ← phone_guard_iff, ← enroll_guard_iff, Bool.not_eq_false, or_assoc]
  refine ⟨?_, ?_, ?_, ?_, ?_, ?_, ?_, ?_, ?_⟩
  · rw [hmem]; simp [hN.1, hN.2.1, hN.2.2.1, hN.2.2.2.1, hN.2.2.2.2]
  · rw [hmem]; simp [hE.1, hE.2.1, hE.2.2.1, hE.2.2.2.1, hE.2.2.2.2]
  · rw [hmem]; simp [hP.1, hP.2.1, hP.2.2.1, hP.2.2.2.1, hP.2.2.2.2]
  · rw [hmem]; simp [hR.1, hR.2.1, hR.2.2.1, hR.2.2.2.1, hR.2.2.2.2]
  · rw [hmem]; simp [hD.1, hD.2.1, hD.2.2.1, hD.2.2.2.1, hD.2.2.2.2]
  · rw [hmem]; simp [hF.1, hF.2.1, hF.2.2.1, hF.2.2.2.1, hF.2.2.2.2]
  · rw [validateUserData_errors, errorsByRule]
    show List.Sublist _ ([msgName] ++ [msgEmail] ++ [msgPhone] ++ [msgEnroll] ++
      [msgDateRequired, msgDateFuture])
    exact ((((ruleErrors_sublist _ msgName).append (ruleErrors_sublist _ msgEmail)).append
      (ruleErrors_sublist _ msgPhone)).append (ruleErrors_sublist _ msgEnroll)).append
      (dateErrors_sublist rt now u.dateOfAdmission)
  · rintro ⟨h1, h2, h3, h4, h5⟩
    rw [validateUserData_errors, errorsByRule]
    rw [← name_guard_iff, Bool.not_eq_false] at h1
    rw [← email_guard_iff, Bool.not_eq_false] at h2
    rw [← phone_guard_iff, Bool.not_eq_false] at h3
    rw [← enroll_guard_iff, Bool.not_eq_false] at h4
    rw [h1, h2, h3, h4]
    by_cases hp : DatePresent u
    · right
      have hf : DateFuture rt now u := by
        by_contra hf
        exact h5 ⟨hp, hf⟩
      refine ⟨?_, hp⟩
      obtain ⟨d, t, hd, hpar, hlt⟩ := hf
      obtain ⟨d2, hd2, hne⟩ := hp
      rw [hd] at hd2
      cases hd2
      cases d with
      | nil => exact (hne rfl).elim
      | cons c r => simp [ruleErrors, dateErrors, hd, hpar, numLt, hlt]
    · left
      refine ⟨?_, hp⟩
      unfold DatePresent at hp
      cases hd : u.dateOfAdmission with
      | none => simp [ruleErrors, dateErrors]
      | some d =>
        cases d with
        | nil => simp [ruleErrors, dateErrors]
        | cons c r => rw [hd] at hp; simp at hp
  · rfl

/-- C8. When the name, email, phone and enroll number pass their rules and the
date of admission parses to a date strictly after the current time, the
result is `isValid = false` with the single message "Date of admission cannot
be in the future" (on an engine that reads no date in the empty string); and
for every candidate the two date messages never appear together. -/
theorem validateUserData_future_date (rt : JSRuntime) (now : Int) :
    (∀ (u : UserData) (d : JSString) (t : Int), rt.dateParse [] = none →
      NameRule u → EmailRule u → PhoneRule u → EnrollRule u →
      u.dateOfAdmission = some d → rt.dateParse d = some t → now < t →
      validateUserData rt now u = { isValid := false, errors := [msgDateFuture] }) ∧
    (∀ u : UserData, ¬ (msgDateRequired ∈ (validateUserData rt now u).errors ∧
      msgDateFuture ∈ (validateUserData rt now u).errors)) := by
  constructor
  · intro u d t hempty hn he hp hr hd hpar hlt
    have herr : (validateUserData rt now u).errors = [msgDateFuture] := by
      rw [validateUserData_errors, errorsByRule, (name_guard_iff u).mpr hn,
        (email_guard_iff u).mpr he, (phone_guard_iff u).mpr hp, (enroll_guard_iff u).mpr hr, hd]
      cases d with
      | nil => rw [hempty] at hpar; cases hpar
      | cons c r => simp [ruleErrors, dateErrors, hpar, numLt, hlt]
    have hval : (validateUserData rt now u).isValid = false := by
      cases hv : (validateUserData rt now u).isValid with
      | false => rfl
      | true =>
        have := (validateUserData_isValid rt now u).mp hv
        rw [herr] at this
        cases this
    calc validateUserData rt now u
        = { isValid := (validateUserData rt now u).isValid,
            errors := (validateUserData rt now u).errors } := rfl
      _ = { isValid := false, errors := [msgDateFuture] } := by rw [herr, hval]
  · rintro u ⟨h1, h2⟩
    have hne : msgDateRequired ≠ msgDateFuture := by decide
    rw [validateUserData_errors, errorsByRule] at h1 h2
    have hnot : ∀ (g : Bool) (m : JSString), m ≠ msgDateRequired → m ≠ msgDateFuture →
        msgDateRequired ∉ ruleErrors g m ∧ msgDateFuture ∉ ruleErrors g m := by
      intro g m hm1 hm2
      cases g
      · simp [ruleErrors]
      · simp only [ruleErrors, if_true, List.mem_singleton]
        exact ⟨fun h => hm1 h.symm, fun h => hm2 h.symm⟩
    have a1 := hnot (falsyOr u.name (fun name => decide ((trim name).length < 2))) msgName
      (by decide) (by decide)
    have a2 := hnot (falsyOr u.email (fun email => !emailRegex.test email)) msgEmail
      (by decide) (by decide)
    have a3 := hnot (falsyOr u.phone (fun phone => !phoneRegex.test (stripNonDigits phone)))
      msgPhone (by decide) (by decide)
    have a4 := hnot (falsyOr u.enrollNumber (fun en => decide ((trim en).length < 3))) msgEnroll
      (by decide) (by decide)
    simp only [List.mem_append, a1.1, a2.1, a3.1, a4.1, false_or] at h1
    simp only [List.mem_append, a1.2, a2.2, a3.2, a4.2, false_or] at h2
    rw [mem_dateErrors_iff] at h1 h2
    rcases h1 with ⟨hnp, _⟩ | ⟨_, _, h⟩
    · rcases h2 with ⟨_, h⟩ | ⟨hp, _, _⟩
      · exact hne.symm h
      · exact hnp hp
    · exact hne h

/-- C8, at an input: a candidate admitted on 2024-01-02, validated at the
first instant of 2024-01-01. -/
theorem validateUserData_future_date_witness :
    validateUserData refRuntime newYear2024 admittedTomorrow =
      { isValid := false, errors := [msgDateFuture] } :=
  (validateUserData_future_date refRuntime newYear2024).1 admittedTomorrow (js "2024-01-02")
    1704153600000 (by decide) ⟨_, rfl, by decide⟩ ⟨_, rfl, (test_iff _ _).mp (by decide)⟩
    ⟨_, rfl, by decide, by decide⟩ ⟨_, rfl, by decide⟩ rfl (by decide) (by decide)

/-! ## Search -/

theorem includes_iff_contained (s t : JSString) : includes s t = true ↔ t <:+: s := by
  simp only [includes, List.any_eq_true, List.mem_tails, List.isPrefixOf_iff_prefix]
  rw [List.infix_iff_prefix_suffix]
  constructor
  · rintro ⟨u, hu, ht⟩; exact ⟨u, ht, hu⟩
  · rintro ⟨u, ht, hu⟩; exact ⟨u, hu, ht⟩

theorem dropWhile_all_eq_nil (p : Nat → Bool) (l : JSString)
    (h : ∀ c ∈ l.dropWhile p, p c = true) : l.dropWhile p = [] := by
  induction l with
  | nil => rfl
  | cons a l ih =>
    cases hp : p a with
    | true =>
      rw [List.dropWhile_cons_of_pos hp] at h ⊢
      exact ih h
    | false =>
      have hn : ¬ p a = true := by simp [hp]
      rw [List.dropWhile_cons_of_neg hn] at h
      have := h a (List.mem_cons_self _ _)
      rw [hp] at this
      cases this

/-- Trimming leaves nothing exactly when the string is empty or all white space. -/
theorem trim_eq_nil_iff (s : JSString) : trim s = [] ↔ ∀ c ∈ s, isWhiteSpace c = true := by
  unfold trim
  rw [List.reverse_eq_nil_iff, List.dropWhile_eq_nil_iff]
  constructor
  · intro h
    have h2 : s.dropWhile isWhiteSpace = [] :=
      dropWhile_all_eq_nil _ _ (fun c hc => h c (List.mem_reverse.mpr hc))
    exact List.dropWhile_eq_nil_iff.mp h2
  · intro h c hc
    have h2 : s.dropWhile isWhiteSpace = [] := List.dropWhile_eq_nil_iff.mpr h
    rw [h2] at hc
    cases hc

/-- C3. With a term that is empty or all white space the list is returned
unchanged; otherwise the result is, in the original order, exactly the records
in which the lower-cased and trimmed term occurs as a run of code units of the
lower-cased name, of the lower-cased email, of the phone as stored, or of the
lower-cased enroll number. -/
theorem searchUsers_spec (rt : JSRuntime) (users : List User) (term : JSString) :
    ((∀ c ∈ term, isWhiteSpace c = true) → searchUsers rt users term = users) ∧
    ((∃ c ∈ term, isWhiteSpace c = false) →
      searchUsers rt users term = users.filter (fun u => decide (
        trim (rt.toLowerCase term) <:+: rt.toLowerCase u.name ∨
        trim (rt.toLowerCase term) <:+: rt.toLowerCase u.email ∨
        trim (rt.toLowerCase term) <:+: u.phone ∨
        trim (rt.toLowerCase term) <:+: rt.toLowerCase u.enrollNumber))) ∧
    (searchUsers rt users term).Sublist users := by
  refine ⟨?_, ?_, ?_⟩
  · intro h
    have ht : trim term = [] := (trim_eq_nil_iff term).mpr h
    simp [searchUsers, ht]
  · rintro ⟨c, hc, hws⟩
    have ht : trim term ≠ [] := by
      intro h0
      have := (trim_eq_nil_iff term).mp h0 c hc
      rw [hws] at this
      cases this
    have hne : term ≠ [] := by
      rintro rfl
      cases hc
    have hcond : (term.isEmpty || trim term == []) = false := by
      cases term with
      | nil => exact (hne rfl).elim
      | cons a l =>
        cases hh : trim (a :: l) with
        | nil => exact (ht hh).elim
        | cons b m => rfl
    simp only [searchUsers, hcond, Bool.false_eq_true, if_false]
    apply List.filter_congr
    intro u _
    simp only [includes_iff_contained, Bool.or_eq_true, decide_eq_true_eq, Bool.decide_or,
      eq_iff_iff, or_assoc]
    rw [Bool.eq_iff_iff]
    simp only [Bool.or_eq_true, includes_iff_contained, decide_eq_true_eq, or_assoc]
  · unfold searchUsers
    split_ifs
    · exact List.Sublist.refl _
    · exact List.filter_sublist _

/-! ## CSV export -/

theorem join_cons (sep x : JSString) (xs : List JSString) :
    join sep (x :: xs) = x ++ xs.flatMap (fun y => sep ++ y) := by
  induction xs generalizing x with
  | nil => simp [join]
  | cons y ys ih => rw [join, ih y]; simp [List.flatMap_cons]

/-- C5. The CSV text is the header line followed, for each record in input
order, by a newline and the line of the record (id, name between double
quotes with nothing escaped, email, phone, enroll number, date of admission,
separated by commas), so no newline follows the last line; the empty list
gives the header line alone and the example record gives the header, a
newline and `1,"A,B",a@b.com,1234567890,E1,2024-01-01`. -/
theorem exportUsersToCSV_spec (users : List User) :
    exportUsersToCSV users = headerLine ++ users.flatMap (fun u => 0x0A :: recordLine u) ∧
    exportUsersToCSV [] = js "ID,Name,Email,Phone,Enroll Number,Date of Admission" ∧
    exportUsersToCSV [csvExample] =
      js "ID,Name,Email,Phone,Enroll Number,Date of Admission\n1,\"A,B\",a@b.com,1234567890,E1,2024-01-01" := by
  refine ⟨?_, by decide, by decide⟩
  have hh : join (js ",") [js "ID", js "Name", js "Email", js "Phone", js "Enroll Number",
      js "Date of Admission"] = headerLine := by decide
  have hc : js "," = [0x2C] := by decide
  have hq : js "\"" = [0x22] := by decide
  have hn : js "\n" = [0x0A] := by decide
  simp only [exportUsersToCSV, hh, join_cons, hc, hq, hn, List.flatMap_map]
  congr 1
  induction users with
  | nil => rfl
  | cons u us ih =>
    simp only [List.flatMap_cons, ih]
    congr 1
    simp [recordLine, List.flatMap_cons]

/-! ## The submit handler and id allocation -/

/-- C7. When the data read from the form fails validation, the submit handler
calls neither `createUser` nor `updateUser` and leaves `nextUserId` as it was. -/
theorem submitHandler_invalid_no_store_call (rt : JSRuntime) (now : Int) (storeOk : Bool)
    (st : AppState) (form : FormValues)
    (h : (validateUserData rt now (formUserData form)).isValid = false) :
    (submitHandler rt now storeOk st form).storeCalls = [] ∧
    (submitHandler rt now storeOk st form).state.nextUserId = st.nextUserId ∧
    (submitHandler rt now storeOk st form).navigated = none := by
  simp [submitHandler, h]

/-- C7, at an input: the form of a new student with the name left blank. -/
theorem submitHandler_invalid_no_store_call_witness :
    (validateUserData refRuntime newYear2024
      (formUserData { newStudentForm with fullName := [] })).isValid = false ∧
    (submitHandler refRuntime newYear2024 true initialState
      { newStudentForm with fullName := [] }).storeCalls = [] ∧
    (submitHandler refRuntime newYear2024 true initialState
      { newStudentForm with fullName := [] }).state.nextUserId = initialState.nextUserId ∧
    (submitHandler refRuntime newYear2024 true initialState
      { newStudentForm with fullName := [] }).navigated = none :=
  ⟨by decide, submitHandler_invalid_no_store_call refRuntime newYear2024 true initialState
    { newStudentForm with fullName := [] } (by decide)⟩

/-- C6, the code at a failing input. Started against a store whose ids are
0, 1 and 2, `initializeUserIds` resolves to 3 but `nextUserId` stays 0, so the
first record created through the form is sent with id "0", an id the store
already holds; the creation after it gets "1". -/
theorem first_created_id_not_seeded :
    (onDOMContentLoaded refRuntime (some storeZeroToTwo) initialState).initializeResult = 3 ∧
    (onDOMContentLoaded refRuntime (some storeZeroToTwo) initialState).state.nextUserId = 0 ∧
    (submitHandler refRuntime newYear2024 true
      (onDOMContentLoaded refRuntime (some storeZeroToTwo) initialState).state
      newStudentForm).storeCalls =
        [.createUser { formUserData newStudentForm with id := some (js "0") }] ∧
    js "0" ∈ storeZeroToTwo.map User.id ∧
    (submitHandler refRuntime newYear2024 true
      (submitHandler refRuntime newYear2024 true
        (onDOMContentLoaded refRuntime (some storeZeroToTwo) initialState).state
        newStudentForm).state newStudentForm).storeCalls =
        [.createUser { formUserData newStudentForm with id := some (js "1") }] := by
  refine ⟨by decide, by decide, by decide, by decide, by decide⟩

/-! ## Sorting with a consistent comparator -/

theorem ConsistentOn.mono {α : Type} {cmp : α → α → Int} {l k : List α}
    (h : ConsistentOn cmp l) (hsub : ∀ a ∈ k, a ∈ l) : ConsistentOn cmp k where
  refl := fun a ha => h.refl a (hsub a ha)
  symm := fun a ha b hb => h.symm a (hsub a ha) b (hsub b hb)
  flip := fun a ha b hb => h.flip a (hsub a ha) b (hsub b hb)
  trans_eq := fun a ha b hb c hc => h.trans_eq a (hsub a ha) b (hsub b hb) c (hsub c hc)
  trans_lt := fun a ha b hb c hc => h.trans_lt a (hsub a ha) b (hsub b hb) c (hsub c hc)
  trans_gt := fun a ha b hb c hc => h.trans_gt a (hsub a ha) b (hsub b hb) c (hsub c hc)

theorem ConsistentOn.le_total {α : Type} {cmp : α → α → Int} {l : List α}
    (h : ConsistentOn cmp l) {a b : α} (ha : a ∈ l) (hb : b ∈ l) :
    cmp a b ≤ 0 ∨ cmp b a ≤ 0 := by
  by_cases hab : cmp a b ≤ 0
  · exact .inl hab
  · right
    have : 0 < cmp a b := by omega
    have := (h.flip b hb a ha).mpr this
    omega

theorem ConsistentOn.eq_zero_of_le {α : Type} {cmp : α → α → Int} {l : List α}
    (h : ConsistentOn cmp l) {a b : α} (ha : a ∈ l) (hb : b ∈ l)
    (hab : cmp a b ≤ 0) (hba : cmp b a ≤ 0) : cmp a b = 0 := by
  by_contra hne
  have hlt : cmp a b < 0 := by omega
  have := (h.flip a ha b hb).mp hlt
  omega

theorem ConsistentOn.le_trans {α : Type} {cmp : α → α → Int} {l : List α}
    (h : ConsistentOn cmp l) {a b c : α} (ha : a ∈ l) (hb : b ∈ l) (hc : c ∈ l)
    (hab : cmp a b ≤ 0) (hbc : cmp b c ≤ 0) : cmp a c ≤ 0 := by
  by_contra hac
  have hac2 : 0 < cmp a c := by omega
  have hca : cmp c a < 0 := (h.flip c hc a ha).mpr hac2
  rcases lt_or_eq_of_le hab with h1 | h1
  · -- c < a < b, so c < b, against b ≤ c
    have hcb := h.trans_lt c hc a ha b hb hca h1
    have := (h.flip c hc b hb).mp hcb
    omega
  · rcases lt_or_eq_of_le hbc with h2 | h2
    · -- b < c < a, so b < a, against a = b
      have hba := h.trans_lt b hb c hc a ha h2 hca
      have := h.symm a ha b hb h1
      omega
    · have := h.trans_eq a ha b hb c hc h1 h2
      omega

/-- Two orderings of the same elements by a consistent comparator that agree
on every class of elements comparing equal are the same list. -/
theorem sorted_eq_of_class_eq {α : Type} {cmp : α → α → Int} :
    ∀ (s t : List α), ConsistentOn cmp s → t.Perm s →
      s.Pairwise (fun a b => cmp a b ≤ 0) → t.Pairwise (fun a b => cmp a b ≤ 0) →
      (∀ e ∈ s, t.filter (fun x => decide (cmp e x = 0)) =
        s.filter (fun x => decide (cmp e x = 0))) → t = s := by
  intro s
  induction s with
  | nil => intro t _ hp _ _ _; exact hp.eq_nil
  | cons x s ih =>
    intro t hc hp hs ht hf
    cases t with
    | nil => exact absurd hp.length_eq (by simp)
    | cons y t =>
      have hxs : x ∈ x :: s := List.mem_cons_self _ _
      have hys : y ∈ x :: s := hp.subset (List.mem_cons_self _ _)
      have hxt : x ∈ y :: t := hp.symm.subset hxs
      obtain ⟨hxmin, hs2⟩ := List.pairwise_cons.mp hs
      obtain ⟨hymin, ht2⟩ := List.pairwise_cons.mp ht
      have hxy : cmp x y ≤ 0 := by
        rcases List.mem_cons.mp hys with h | h
        · rw [h]; exact le_of_eq (hc.refl x hxs)
        · exact hxmin y h
      have hyx : cmp y x ≤ 0 := by
        rcases List.mem_cons.mp hxt with h | h
        · rw [h]; exact le_of_eq (hc.refl y hys)
        · exact hymin x h
      have h0 : cmp x y = 0 := hc.eq_zero_of_le hxs hys hxy hyx
      have hfx := hf x hxs
      simp only [List.filter_cons, h0, hc.refl x hxs, decide_True, if_true,
        List.cons.injEq] at hfx
      obtain ⟨rfl, _⟩ := hfx
      have hp2 : t.Perm s := hp.cons_inv
      have hc2 : ConsistentOn cmp s := hc.mono (fun a ha => List.mem_cons_of_mem _ ha)
      have hf2 : ∀ e ∈ s, t.filter (fun x => decide (cmp e x = 0)) =
          s.filter (fun x => decide (cmp e x = 0)) := by
        intro e he
        have := hf e (List.mem_cons_of_mem _ he)
        simp only [List.filter_cons] at this
        split_ifs at this with hd
        · exact (List.cons.inj this).2
        · exact this
      rw [ih t hc2 hp2 hs2 ht2 hf2]

/-- A conforming `sort` keeps every class of elements comparing equal in its
original order. -/
theorem JSRuntime.Conforms.filter_class {rt : JSRuntime} (hrt : rt.Conforms)
    {cmp : User → User → Int} {l : List User} (hc : ConsistentOn cmp l)
    {e : User} (he : e ∈ l) :
    (rt.arraySort cmp l).filter (fun x => decide (cmp e x = 0)) =
      l.filter (fun x => decide (cmp e x = 0)) := by
  have hsub : (l.filter (fun x => decide (cmp e x = 0))).Sublist (rt.arraySort cmp l) := by
    apply hrt.sort_stable cmp l hc _ (List.filter_sublist _)
    intro a ha b hb
    obtain ⟨ha1, ha2⟩ := List.mem_filter.mp ha
    obtain ⟨hb1, hb2⟩ := List.mem_filter.mp hb
    simp only [decide_eq_true_eq] at ha2 hb2
    exact hc.trans_eq a ha1 e he b hb1 (hc.symm e he a ha1 ha2) hb2
  have hsub2 := hsub.filter (fun x => decide (cmp e x = 0))
  simp only [List.filter_filter, Bool.and_self] at hsub2
  have hlen := ((hrt.sort_perm cmp l).filter (fun x => decide (cmp e x = 0))).length_eq
  exact (hsub2.eq_of_length hlen.symm).symm

/-- With a consistent comparator, sorting the result of a conforming `sort`
again changes nothing. -/
theorem JSRuntime.Conforms.sort_idem {rt : JSRuntime} (hrt : rt.Conforms)
    {cmp : User → User → Int} {l : List User} (hc : ConsistentOn cmp l) :
    rt.arraySort cmp (rt.arraySort cmp l) = rt.arraySort cmp l := by
  have hc2 : ConsistentOn cmp (rt.arraySort cmp l) :=
    hc.mono (fun a ha => (hrt.sort_perm cmp l).subset ha)
  apply sorted_eq_of_class_eq _ _ hc2 (hrt.sort_perm cmp _) (hrt.sort_sorted cmp l hc)
    (hrt.sort_sorted cmp _ hc2)
  intro e he
  exact hrt.filter_class hc2 he

/-! ## The comparator of `sortUsers` -/

theorem compareUsers_eq (rt : JSRuntime) (field direction : JSString) (a b : User) :
    compareUsers rt field direction a b =
      if direction = js "asc" then threeWay (sortKey rt field a) (sortKey rt field b)
      else threeWay (sortKey rt field b) (sortKey rt field a) := by
  have h1 : js "dateOfAdmission" ≠ js "id" := by decide
  have h2 : js "name" ≠ js "id" ∧ js "name" ≠ js "dateOfAdmission" := by decide
  have h3 : js "email" ≠ js "id" ∧ js "email" ≠ js "dateOfAdmission" ∧
      js "email" ≠ js "name" := by decide
  have h4 : js "phone" ≠ js "id" ∧ js "phone" ≠ js "dateOfAdmission" ∧
      js "phone" ≠ js "name" ∧ js "phone" ≠ js "email" := by decide
  have h5 : js "enrollNumber" ≠ js "id" ∧ js "enrollNumber" ≠ js "dateOfAdmission" ∧
      js "enrollNumber" ≠ js "name" ∧ js "enrollNumber" ≠ js "email" ∧
      js "enrollNumber" ≠ js "phone" := by decide
  by_cases f1 : field = js "id"
  · subst f1
    simp [compareUsers, sortKey, threeWay, User.get, parseIntOf, newDate, lowerOf,
      JSValue.isString, h1.symm]
  by_cases f2 : field = js "dateOfAdmission"
  · subst f2
    simp [compareUsers, sortKey, threeWay, User.get, parseIntOf, newDate, lowerOf,
      JSValue.isString, h1, h2.1.symm, h2.2.symm, h3.1.symm, h3.2.1.symm, h4.1.symm,
      h4.2.1.symm, h5.1.symm, h5.2.1.symm]
  by_cases f3 : field = js "name"
  · subst f3
    simp [compareUsers, sortKey, threeWay, User.get, parseIntOf, newDate, lowerOf,
      JSValue.isString, h2.1, h2.2]
  by_cases f4 : field = js "email"
  · subst f4
    simp [compareUsers, sortKey, threeWay, User.get, parseIntOf, newDate, lowerOf,
      JSValue.isString, h3.1, h3.2.1, h3.2.2]
  by_cases f5 : field = js "phone"
  · subst f5
    simp [compareUsers, sortKey, threeWay, User.get, parseIntOf, newDate, lowerOf,
      JSValue.isString, h4.1, h4.2.1, h4.2.2.1, h4.2.2.2]
  by_cases f6 : field = js "enrollNumber"
  · subst f6
    simp [compareUsers, sortKey, threeWay, User.get, parseIntOf, newDate, lowerOf,
      JSValue.isString, h5.1, h5.2.1, h5.2.2.1, h5.2.2.2.1, h5.2.2.2.2]
  simp [compareUsers, sortKey, threeWay, User.get, parseIntOf, newDate, lowerOf,
    JSValue.isString, f1, f2, f3, f4, f5, f6]

theorem sortKey_kind (rt : JSRuntime) (field : JSString) (a b : User) :
    (sortKey rt field a).kind = (sortKey rt field b).kind := by
  unfold sortKey
  split_ifs <;> rfl

/-! ## The order on keys -/

theorem strLt_irrefl : ∀ a : JSString, strLt a a = false
  | [] => rfl
  | a :: as => by simp [strLt, strLt_irrefl as]

theorem strLt_trans : ∀ a b c : JSString, strLt a b = true → strLt b c = true →
    strLt a c = true
  | [], [], _, h, _ => by simp [strLt] at h
  | [], _ :: _, [], _, h => by simp [strLt] at h
  | [], _ :: _, _ :: _, _, _ => by simp [strLt]
  | _ :: _, [], _, h, _ => by simp [strLt] at h
  | _ :: _, _ :: _, [], _, h => by simp [strLt] at h
  | a :: as, b :: bs, c :: cs, h1, h2 => by
    simp only [strLt, Bool.or_eq_true, decide_eq_true_eq, Bool.and_eq_true, beq_iff_eq]
      at h1 h2 ⊢
    rcases h1 with h1 | ⟨rfl, h1⟩
    · rcases h2 with h2 | ⟨rfl, _⟩
      · exact .inl (Nat.lt_trans h1 h2)
      · exact .inl h1
    · rcases h2 with h2 | ⟨rfl, h2⟩
      · exact .inl h2
      · exact .inr ⟨rfl, strLt_trans as bs cs h1 h2⟩

theorem strLt_trichotomy : ∀ a b : JSString, a = b ∨ strLt a b = true ∨ strLt b a = true
  | [], [] => .inl rfl
  | [], _ :: _ => .inr (.inl rfl)
  | _ :: _, [] => .inr (.inr rfl)
  | a :: as, b :: bs => by
    simp only [strLt, Bool.or_eq_true, decide_eq_true_eq, Bool.and_eq_true, beq_iff_eq,
      List.cons.injEq]
    rcases Nat.lt_trichotomy a b with h | rfl | h
    · exact .inr (.inl (.inl h))
    · rcases strLt_trichotomy as bs with h | h | h
      · exact .inl ⟨rfl, h⟩
      · exact .inr (.inl (.inr ⟨rfl, h⟩))
      · exact .inr (.inr (.inr ⟨rfl, h⟩))
    · exact .inr (.inr (.inl h))

theorem JSValue.lt_irrefl (x : JSValue) : x.lt x = false := by
  cases x with
  | undefined => rfl
  | number n => cases n <;> simp [JSValue.lt, numLt]
  | date n => cases n <;> simp [JSValue.lt, numLt]
  | string s => simp [JSValue.lt, strLt_irrefl]

theorem numLt_trans {a b c : JSNumber} (h1 : numLt a b = true) (h2 : numLt b c = true) :
    numLt a c = true := by
  cases a <;> cases b <;> cases c <;> simp only [numLt, decide_eq_true_eq] at h1 h2 ⊢ <;>
    first | omega | cases h1 | cases h2

theorem JSValue.lt_cases {x y : JSValue} (h : x.lt y = true) :
    (∃ a b, x = .number a ∧ y = .number b ∧ numLt a b = true) ∨
    (∃ a b, x = .date a ∧ y = .date b ∧ numLt a b = true) ∨
    (∃ a b, x = .string a ∧ y = .string b ∧ strLt a b = true) := by
  cases x <;> cases y <;> simp only [JSValue.lt] at h <;> first | cases h | skip
  · exact .inl ⟨_, _, rfl, rfl, h⟩
  · exact .inr (.inl ⟨_, _, rfl, rfl, h⟩)
  · exact .inr (.inr ⟨_, _, rfl, rfl, h⟩)

theorem JSValue.lt_trans {x y z : JSValue} (h1 : x.lt y = true) (h2 : y.lt z = true) :
    x.lt z = true := by
  rcases JSValue.lt_cases h1 with ⟨a, b, rfl, rfl, hab⟩ | ⟨a, b, rfl, rfl, hab⟩ |
    ⟨a, b, rfl, rfl, hab⟩
  · rcases JSValue.lt_cases h2 with ⟨_, c, hb, rfl, hbc⟩ | ⟨_, c, hb, rfl, hbc⟩ |
      ⟨_, c, hb, rfl, hbc⟩
    · cases hb; exact numLt_trans hab hbc
    · cases hb
    · cases hb
  · rcases JSValue.lt_cases h2 with ⟨_, c, hb, rfl, hbc⟩ | ⟨_, c, hb, rfl, hbc⟩ |
      ⟨_, c, hb, rfl, hbc⟩
    · cases hb
    · cases hb; exact numLt_trans hab hbc
    · cases hb
  · rcases JSValue.lt_cases h2 with ⟨_, c, hb, rfl, hbc⟩ | ⟨_, c, hb, rfl, hbc⟩ |
      ⟨_, c, hb, rfl, hbc⟩
    · cases hb
    · cases hb
    · cases hb; exact strLt_trans _ _ _ hab hbc

theorem JSValue.lt_asymm {x y : JSValue} (h : x.lt y = true) : y.lt x = false := by
  cases hyx : y.lt x with
  | false => rfl
  | true =>
    have := JSValue.lt_trans h hyx
    rw [JSValue.lt_irrefl] at this
    cases this

theorem numLt_trichotomy {a b : JSNumber} (ha : a ≠ none) (hb : b ≠ none) :
    a = b ∨ numLt a b = true ∨ numLt b a = true := by
  cases a with
  | none => exact (ha rfl).elim
  | some m =>
    cases b with
    | none => exact (hb rfl).elim
    | some n =>
      simp only [numLt, decide_eq_true_eq, Option.some.injEq]
      omega

theorem JSValue.lt_trichotomy {x y : JSValue} (hk : x.kind = y.kind)
    (hx : x.isNaN = false) (hy : y.isNaN = false) :
    x = y ∨ x.lt y = true ∨ y.lt x = true := by
  cases x with
  | undefined =>
    cases y with
    | undefined => exact .inl rfl
    | _ => simp [JSValue.kind] at hk
  | number a =>
    cases y with
    | number b =>
      have ha : a ≠ none := by rintro rfl; simp [JSValue.isNaN] at hx
      have hb : b ≠ none := by rintro rfl; simp [JSValue.isNaN] at hy
      simpa [JSValue.lt] using numLt_trichotomy ha hb
    | _ => simp [JSValue.kind] at hk
  | date a =>
    cases y with
    | date b =>
      have ha : a ≠ none := by rintro rfl; simp [JSValue.isNaN] at hx
      have hb : b ≠ none := by rintro rfl; simp [JSValue.isNaN] at hy
      simpa [JSValue.lt] using numLt_trichotomy ha hb
    | _ => simp [JSValue.kind] at hk
  | string a =>
    cases y with
    | string b => simpa [JSValue.lt] using strLt_trichotomy a b
    | _ => simp [JSValue.kind] at hk

theorem threeWay_neg_iff (x y : JSValue) : threeWay x y < 0 ↔ x.lt y = true := by
  unfold threeWay
  split_ifs with h1 h2 <;> simp [h1]

theorem threeWay_pos_iff (x y : JSValue) : 0 < threeWay x y ↔ y.lt x = true := by
  unfold threeWay
  split_ifs with h1 h2
  · simp [JSValue.lt_asymm h1]
  · simp [h2]
  · simp [h2]

theorem threeWay_eq_zero_iff (x y : JSValue) :
    threeWay x y = 0 ↔ x.lt y = false ∧ y.lt x = false := by
  unfold threeWay
  split_ifs with h1 h2
  · simp [h1]
  · simp [h2]
  · simp [h1, h2]

theorem threeWay_eq_zero_iff_eq {x y : JSValue} (hk : x.kind = y.kind)
    (hx : x.isNaN = false) (hy : y.isNaN = false) : threeWay x y = 0 ↔ x = y := by
  rw [threeWay_eq_zero_iff]
  constructor
  · rintro ⟨h1, h2⟩
    rcases JSValue.lt_trichotomy hk hx hy with h | h | h
    · exact h
    · rw [h1] at h; cases h
    · rw [h2] at h; cases h
  · rintro rfl
    exact ⟨JSValue.lt_irrefl x, JSValue.lt_irrefl x⟩

theorem consistentOn_threeWay (l : List User) (k : User → JSValue)
    (hk : ∀ a ∈ l, ∀ b ∈ l, (k a).kind = (k b).kind)
    (hn : ∀ a ∈ l, (k a).isNaN = false) :
    ConsistentOn (fun a b => threeWay (k a) (k b)) l where
  refl := fun a _ => (threeWay_eq_zero_iff _ _).mpr ⟨JSValue.lt_irrefl _, JSValue.lt_irrefl _⟩
  symm := fun a _ b _ h => by
    rw [threeWay_eq_zero_iff] at h ⊢
    exact ⟨h.2, h.1⟩
  flip := fun a _ b _ => by rw [threeWay_neg_iff, threeWay_pos_iff]
  trans_eq := fun a ha b hb c hc h1 h2 => by
    rw [threeWay_eq_zero_iff_eq (hk a ha b hb) (hn a ha) (hn b hb)] at h1
    rw [threeWay_eq_zero_iff_eq (hk b hb c hc) (hn b hb) (hn c hc)] at h2
    rw [threeWay_eq_zero_iff_eq (hk a ha c hc) (hn a ha) (hn c hc)]
    exact h1.trans h2
  trans_lt := fun a _ b _ c _ h1 h2 => by
    rw [threeWay_neg_iff] at h1 h2 ⊢
    exact JSValue.lt_trans h1 h2
  trans_gt := fun a _ b _ c _ h1 h2 => by
    rw [threeWay_pos_iff] at h1 h2 ⊢
    exact JSValue.lt_trans h2 h1

theorem ConsistentOn.swap {α : Type} {cmp : α → α → Int} {l : List α}
    (h : ConsistentOn cmp l) : ConsistentOn (fun a b => cmp b a) l where
  refl := h.refl
  symm := fun a ha b hb hab => h.symm b hb a ha hab
  flip := fun a ha b hb => h.flip b hb a ha
  trans_eq := fun a ha b hb c hc h1 h2 => h.trans_eq c hc b hb a ha h2 h1
  trans_lt := fun a ha b hb c hc h1 h2 => h.trans_lt c hc b hb a ha h2 h1
  trans_gt := fun a ha b hb c hc h1 h2 => h.trans_gt c hc b hb a ha h2 h1

/-- On records with comparable keys the comparator of `sortUsers` is
consistent, in either direction. -/
theorem compareUsers_consistent (rt : JSRuntime) (field direction : JSString)
    (users : List User) (hk : KeysComparable rt field users) :
    ConsistentOn (compareUsers rt field direction) users := by
  have hbase := consistentOn_threeWay users (sortKey rt field)
    (fun a _ b _ => sortKey_kind rt field a b) hk
  by_cases hd : direction = js "asc"
  · have : compareUsers rt field direction =
        fun a b => threeWay (sortKey rt field a) (sortKey rt field b) := by
      funext a b; rw [compareUsers_eq, if_pos hd]
    rw [this]; exact hbase
  · have : compareUsers rt field direction =
        fun a b => threeWay (sortKey rt field b) (sortKey rt field a) := by
      funext a b; rw [compareUsers_eq, if_neg hd]
    rw [this]; exact hbase.swap

/-! ## Runs are kept -/

theorem takeRun_append {α : Type} (cmp : α → α → Int) (d : Bool) :
    ∀ (rest : List α) (prev : α),
      (takeRun cmp d prev rest).1 ++ (takeRun cmp d prev rest).2 = rest := by
  intro rest
  induction rest with
  | nil => intro prev; rfl
  | cons c rest ih =>
    intro prev
    cases d
    · simp only [takeRun, Bool.false_eq_true, if_false]
      split_ifs
      · rfl
      · simp [ih c]
    · simp only [takeRun, if_true]
      split_ifs
      · rfl
      · simp [ih c]

theorem takeRun_ascending {α : Type} (cmp : α → α → Int) :
    ∀ (rest : List α) (prev : α),
      List.Chain (fun a b => ¬ cmp b a < 0) prev (takeRun cmp false prev rest).1 := by
  intro rest
  induction rest with
  | nil => intro prev; exact List.Chain.nil
  | cons c rest ih =>
    intro prev
    simp only [takeRun, Bool.false_eq_true, if_false]
    split_ifs with h
    · exact List.Chain.nil
    · exact List.Chain.cons h (ih c)

theorem takeRun_descending {α : Type} (cmp : α → α → Int) :
    ∀ (rest : List α) (prev : α),
      List.Chain (fun a b => cmp b a < 0) prev (takeRun cmp true prev rest).1 := by
  intro rest
  induction rest with
  | nil => intro prev; exact List.Chain.nil
  | cons c rest ih =>
    intro prev
    simp only [takeRun, if_true]
    split_ifs with h
    · exact List.Chain.nil
    · exact List.Chain.cons (by omega) (ih c)

theorem takeRun_of_noDescent {α : Type} (cmp : α → α → Int) :
    ∀ (rest : List α) (prev : α), List.Chain (fun a b => ¬ cmp b a < 0) prev rest →
      takeRun cmp false prev rest = (rest, []) := by
  intro rest
  induction rest with
  | nil => intro prev _; rfl
  | cons c rest ih =>
    intro prev h
    obtain ⟨h1, h2⟩ := List.chain_cons.mp h
    simp only [takeRun, Bool.false_eq_true, if_false, if_neg h1, ih c h2]

/-- An array that is one ascending run is returned as it is. -/
theorem runInsertionSort_of_noDescent {α : Type} (cmp : α → α → Int) (l : List α)
    (h : NoDescent cmp l) : runInsertionSort cmp l = l := by
  unfold runInsertionSort
  split_ifs with hlen
  · rfl
  · match l, h with
    | [], _ => rfl
    | [a], _ => rfl
    | a :: b :: rest, h =>
      obtain ⟨h1, h2⟩ := List.chain'_cons.mp h
      have hd : decide (cmp b a < 0) = false := by simpa using h1
      simp only [countAndMakeRun, hd, Bool.false_eq_true, if_false,
        takeRun_of_noDescent cmp rest b h2, binaryInsertionSort, List.foldl_nil]

theorem binaryInsert_split {α : Type} (cmp : α → α → Int) (pivot : α) :
    ∀ (fuel : Nat) (w : List α), w.length ≤ fuel →
      ∃ w1 w2, w = w1 ++ w2 ∧ binaryInsert cmp pivot fuel w = w1 ++ pivot :: w2 ∧
        (∀ x ∈ w1.getLast?, ¬ cmp pivot x < 0) ∧ (∀ y ∈ w2.head?, cmp pivot y < 0) := by
  intro fuel
  induction fuel with
  | zero =>
    intro w hw
    have : w = [] := List.length_eq_zero.mp (by omega)
    subst this
    exact ⟨[], [], rfl, rfl, by simp, by simp⟩
  | succ n ih =>
    intro w hw
    rw [binaryInsert]
    have hsplit : w = w.take (w.length / 2) ++ w.drop (w.length / 2) :=
      (List.take_append_drop _ _).symm
    cases hdrop : w.drop (w.length / 2) with
    | nil =>
      have hlen : (w.drop (w.length / 2)).length = 0 := by rw [hdrop]; rfl
      rw [List.length_drop] at hlen
      have : w = [] := List.length_eq_zero.mp (by omega)
      subst this
      exact ⟨[], [], rfl, rfl, by simp, by simp⟩
    | cons mid after =>
      rw [hdrop] at hsplit
      have hlenw : w.length = (w.take (w.length / 2)).length + (after.length + 1) := by
        conv_lhs => rw [hsplit]
        simp
      have htake : (w.take (w.length / 2)).length ≤ n := by omega
      have hafter : after.length ≤ n := by omega
      simp only []
      split_ifs with hc
      · obtain ⟨u1, u2, hu, hr, hl, hh⟩ := ih _ htake
        refine ⟨u1, u2 ++ mid :: after, ?_, ?_, hl, ?_⟩
        · rw [← List.append_assoc, ← hu]; exact hsplit
        · rw [hr]; simp
        · intro y hy
          cases u2 with
          | nil =>
            simp only [List.nil_append, List.head?_cons, Option.mem_def,
              Option.some.injEq] at hy
            subst hy; exact hc
          | cons v u2 => exact hh y (by simpa using hy)
      · obtain ⟨v1, v2, hv, hr, hl, hh⟩ := ih _ hafter
        refine ⟨w.take (w.length / 2) ++ mid :: v1, v2, ?_, ?_, ?_, hh⟩
        · rw [List.append_assoc, List.cons_append, ← hv]; exact hsplit
        · rw [hr]; simp
        · intro x hx
          cases v1 using List.reverseRecOn with
          | nil =>
            have : (w.take (w.length / 2) ++ [mid]).getLast? = some mid := by simp
            rw [this] at hx
            simp only [Option.mem_def, Option.some.injEq] at hx
            subst hx; exact hc
          | append_singleton v1 z _ =>
            have e : w.take (w.length / 2) ++ mid :: (v1 ++ [z]) =
                (w.take (w.length / 2) ++ mid :: v1) ++ [z] := by simp
            rw [e, List.getLast?_append, List.getLast?_singleton] at hx
            exact hl x (by simpa using hx)

theorem noDescent_insert {α : Type} (cmp : α → α → Int)
    (hasym : ∀ a b, cmp a b < 0 → ¬ cmp b a < 0) (pivot : α) (w1 w2 : List α)
    (h : NoDescent cmp (w1 ++ w2))
    (hl : ∀ x ∈ w1.getLast?, ¬ cmp pivot x < 0) (hh : ∀ y ∈ w2.head?, cmp pivot y < 0) :
    NoDescent cmp (w1 ++ pivot :: w2) := by
  unfold NoDescent at h ⊢
  obtain ⟨h1, h2, _⟩ := List.chain'_append.mp h
  rw [List.chain'_append]
  refine ⟨h1, ?_, ?_⟩
  · rw [List.chain'_cons']
    exact ⟨fun y hy => hasym _ _ (hh y hy), h2⟩
  · intro x hx y hy
    simp only [List.head?_cons, Option.mem_def, Option.some.injEq] at hy
    subst hy
    exact hl x hx

theorem noDescent_binaryInsertionSort {α : Type} (cmp : α → α → Int)
    (hasym : ∀ a b, cmp a b < 0 → ¬ cmp b a < 0) :
    ∀ (rest sorted : List α), NoDescent cmp sorted →
      NoDescent cmp (binaryInsertionSort cmp sorted rest) := by
  intro rest
  induction rest with
  | nil => intro sorted h; exact h
  | cons p rest ih =>
    intro sorted h
    simp only [binaryInsertionSort, List.foldl_cons]
    apply ih
    obtain ⟨w1, w2, hw, hr, hl, hh⟩ := binaryInsert_split cmp p sorted.length sorted (Nat.le_refl _)
    rw [hr]
    exact noDescent_insert cmp hasym p w1 w2 (hw ▸ h) hl hh

theorem noDescent_countAndMakeRun {α : Type} (cmp : α → α → Int)
    (hasym : ∀ a b, cmp a b < 0 → ¬ cmp b a < 0) (l : List α) :
    NoDescent cmp (countAndMakeRun cmp l).1 := by
  match l with
  | [] => exact List.chain'_nil
  | [a] => exact List.chain'_singleton a
  | a :: b :: rest =>
    simp only [countAndMakeRun]
    by_cases hd : cmp b a < 0
    · simp only [hd, decide_True, if_true]
      unfold NoDescent
      rw [List.chain'_reverse]
      have hch : List.Chain' (fun x y => cmp y x < 0)
          (a :: b :: (takeRun cmp true b rest).1) :=
        List.chain'_cons.mpr ⟨hd, takeRun_descending cmp rest b⟩
      exact hch.imp (fun x y hxy => hasym _ _ hxy)
    · simp only [hd, decide_False, Bool.false_eq_true, if_false]
      exact List.chain'_cons.mpr ⟨hd, takeRun_ascending cmp rest b⟩

/-- Whatever the comparator, as long as it never says both `a < b` and
`b < a`, no element of the result is less than the one before it. -/
theorem noDescent_runInsertionSort {α : Type} (cmp : α → α → Int)
    (hasym : ∀ a b, cmp a b < 0 → ¬ cmp b a < 0) (l : List α) :
    NoDescent cmp (runInsertionSort cmp l) := by
  unfold runInsertionSort
  split_ifs with hlen
  · match l, hlen with
    | [], _ => exact List.chain'_nil
    | [a], _ => exact List.chain'_singleton a
    | _ :: _ :: _, h => simp only [List.length_cons] at h; omega
  · exact noDescent_binaryInsertionSort cmp hasym _ _ (noDescent_countAndMakeRun cmp hasym l)

/-! ## The run-and-insertion sort permutes -/

theorem countAndMakeRun_perm {α : Type} (cmp : α → α → Int) (l : List α) :
    ((countAndMakeRun cmp l).1 ++ (countAndMakeRun cmp l).2).Perm l := by
  match l with
  | [] => exact List.Perm.refl _
  | [a] => exact List.Perm.refl _
  | a :: b :: rest =>
    simp only [countAndMakeRun]
    have happ := takeRun_append cmp (decide (cmp b a < 0)) rest b
    have hrun : (a :: b :: (takeRun cmp (decide (cmp b a < 0)) b rest).1 ++
        (takeRun cmp (decide (cmp b a < 0)) b rest).2) = a :: b :: rest := by
      simp only [List.cons_append, happ]
    split_ifs
    · rw [← hrun]
      exact (List.reverse_perm _).append_right _
    · rw [hrun]

theorem binaryInsert_perm {α : Type} (cmp : α → α → Int) (pivot : α) (w : List α) :
    (binaryInsert cmp pivot w.length w).Perm (pivot :: w) := by
  obtain ⟨w1, w2, hw, hr, _, _⟩ := binaryInsert_split cmp pivot w.length w (Nat.le_refl _)
  rw [hr, hw]
  exact List.perm_middle

theorem binaryInsertionSort_perm {α : Type} (cmp : α → α → Int) :
    ∀ (rest sorted : List α), (binaryInsertionSort cmp sorted rest).Perm (sorted ++ rest) := by
  intro rest
  induction rest with
  | nil => intro sorted; simp [binaryInsertionSort]
  | cons p rest ih =>
    intro sorted
    simp only [binaryInsertionSort, List.foldl_cons]
    refine (ih _).trans ?_
    refine ((binaryInsert_perm cmp p sorted).append_right rest).trans ?_
    exact List.perm_middle.symm

theorem runInsertionSort_perm {α : Type} (cmp : α → α → Int) (l : List α) :
    (runInsertionSort cmp l).Perm l := by
  unfold runInsertionSort
  split_ifs
  · exact List.Perm.refl _
  · exact (binaryInsertionSort_perm cmp _ _).trans (countAndMakeRun_perm cmp l)

/-! ## The run-and-insertion sort commutes with relabelling -/

theorem takeRun_map {α β : Type} (f : β → α) (cmp : α → α → Int) (d : Bool) :
    ∀ (rest : List β) (prev : β),
      ((takeRun (fun a b => cmp (f a) (f b)) d prev rest).1.map f =
        (takeRun cmp d (f prev) (rest.map f)).1) ∧
      ((takeRun (fun a b => cmp (f a) (f b)) d prev rest).2.map f =
        (takeRun cmp d (f prev) (rest.map f)).2) := by
  intro rest
  induction rest with
  | nil => intro prev; exact ⟨rfl, rfl⟩
  | cons c rest ih =>
    intro prev
    cases d
    · simp only [takeRun, Bool.false_eq_true, if_false, List.map_cons]
      split_ifs
      · exact ⟨rfl, rfl⟩
      · exact ⟨by simp [(ih c).1], (ih c).2⟩
    · simp only [takeRun, if_true, List.map_cons]
      split_ifs
      · exact ⟨rfl, rfl⟩
      · exact ⟨by simp [(ih c).1], (ih c).2⟩

theorem countAndMakeRun_map {α β : Type} (f : β → α) (cmp : α → α → Int) (l : List β) :
    ((countAndMakeRun (fun a b => cmp (f a) (f b)) l).1.map f =
      (countAndMakeRun cmp (l.map f)).1) ∧
    ((countAndMakeRun (fun a b => cmp (f a) (f b)) l).2.map f =
      (countAndMakeRun cmp (l.map f)).2) := by
  match l with
  | [] => exact ⟨rfl, rfl⟩
  | [a] => exact ⟨rfl, rfl⟩
  | a :: b :: rest =>
    have h := takeRun_map f cmp (decide (cmp (f b) (f a) < 0)) rest b
    simp only [countAndMakeRun, List.map_cons]
    refine ⟨?_, h.2⟩
    split_ifs
    · rw [List.map_reverse, List.map_cons, List.map_cons, h.1]
    · rw [List.map_cons, List.map_cons, h.1]

theorem binaryInsert_map {α β : Type} (f : β → α) (cmp : α → α → Int) (pivot : β) :
    ∀ (fuel : Nat) (w : List β),
      (binaryInsert (fun a b => cmp (f a) (f b)) pivot fuel w).map f =
        binaryInsert cmp (f pivot) fuel (w.map f) := by
  intro fuel
  induction fuel with
  | zero => intro w; rfl
  | succ n ih =>
    intro w
    rw [binaryInsert, binaryInsert, List.length_map, ← List.map_drop, ← List.map_take]
    cases hd : w.drop (w.length / 2) with
    | nil => rfl
    | cons mid after =>
      simp only [List.map_cons]
      split_ifs
      · rw [List.map_append, ih, List.map_cons]
      · rw [List.map_append, List.map_cons, ih]

theorem binaryInsertionSort_map {α β : Type} (f : β → α) (cmp : α → α → Int) :
    ∀ (rest sorted : List β),
      (binaryInsertionSort (fun a b => cmp (f a) (f b)) sorted rest).map f =
        binaryInsertionSort cmp (sorted.map f) (rest.map f) := by
  intro rest
  induction rest with
  | nil => intro sorted; rfl
  | cons p rest ih =>
    intro sorted
    simp only [binaryInsertionSort, List.foldl_cons, List.map_cons] at ih ⊢
    rw [ih, binaryInsert_map, List.length_map]

theorem runInsertionSort_map {α β : Type} (f : β → α) (cmp : α → α → Int) (l : List β) :
    (runInsertionSort (fun a b => cmp (f a) (f b)) l).map f =
      runInsertionSort cmp (l.map f) := by
  unfold runInsertionSort
  rw [List.length_map]
  split_ifs
  · rfl
  · rw [binaryInsertionSort_map, (countAndMakeRun_map f cmp l).1, (countAndMakeRun_map f cmp l).2]

/-! ## With a consistent comparator the run-and-insertion sort orders and is stable -/

theorem noDescent_iff_pairwise {β : Type} (c : β → β → Int)
    (hflip : ∀ a b, c a b < 0 ↔ 0 < c b a)
    (htrans : ∀ a b d, c a b ≤ 0 → c b d ≤ 0 → c a d ≤ 0) (s : List β) :
    NoDescent c s ↔ s.Pairwise (fun a b => c a b ≤ 0) := by
  haveI : IsTrans β (fun a b => c a b ≤ 0) := ⟨htrans⟩
  rw [← List.chain'_iff_pairwise]
  unfold NoDescent
  constructor
  · intro h
    refine h.imp ?_
    intro a b hab
    by_contra hn
    exact hab ((hflip b a).mpr (by omega))
  · intro h
    refine h.imp ?_
    intro a b hab hlt
    have := (hflip b a).mp hlt
    omega

theorem lt_trans_of_le_trans {β : Type} (c : β → β → Int)
    (hflip : ∀ a b, c a b < 0 ↔ 0 < c b a)
    (htrans : ∀ a b d, c a b ≤ 0 → c b d ≤ 0 → c a d ≤ 0) {x y z : β}
    (hzy : c z y < 0) (hyx : c y x < 0) : c z x < 0 := by
  have hle : c z x ≤ 0 := htrans z y x (by omega) (by omega)
  by_contra hn
  have h0 : c z x = 0 := by omega
  have hxz : c x z ≤ 0 := by
    by_contra h
    have := (hflip z x).mpr (by omega)
    omega
  have hxy : c x y ≤ 0 := htrans x z y hxz (by omega)
  have := (hflip y x).mp hyx
  omega

theorem binaryInsert_stable {β : Type} (c : β → β → Int)
    (hflip : ∀ a b, c a b < 0 ↔ 0 < c b a)
    (htrans : ∀ a b d, c a b ≤ 0 → c b d ≤ 0 → c a d ≤ 0)
    (p : β) (sorted done : List β) (hs : sorted.Pairwise (fun a b => c a b ≤ 0))
    (hst : ∀ e : List β, e.Sublist done → (∀ a ∈ e, ∀ b ∈ e, c a b = 0) → e.Sublist sorted) :
    ∀ e : List β, e.Sublist (done ++ [p]) → (∀ a ∈ e, ∀ b ∈ e, c a b = 0) →
      e.Sublist (binaryInsert c p sorted.length sorted) := by
  intro e he heq
  obtain ⟨w1, w2, hw, hr, _, hh⟩ := binaryInsert_split c p sorted.length sorted (Nat.le_refl _)
  rw [hr]
  have hgt : ∀ y ∈ w2, c p y < 0 := by
    cases w2 with
    | nil => intro y hy; cases hy
    | cons h t =>
      have hph : c p h < 0 := hh h (by simp)
      intro y hy
      rcases List.mem_cons.mp hy with rfl | hy
      · exact hph
      · have hhy : c h y ≤ 0 := by
          rw [hw] at hs
          have h2 := (List.pairwise_append.mp hs).2.1
          exact List.rel_of_pairwise_cons h2 hy
        by_contra hn
        have hyp : c y p ≤ 0 := by
          by_contra h'
          exact hn ((hflip p y).mpr (by omega))
        have := htrans h y p hhy hyp
        have := (hflip p h).mp hph
        omega
  obtain ⟨a, b, rfl, ha, hb⟩ := List.sublist_append_iff.mp he
  have hb2 : b = [] ∨ b = [p] := by
    cases hb with
    | cons _ h => left; exact List.sublist_nil.mp h
    | cons₂ _ h => right; rw [List.sublist_nil.mp h]
  have haeq : ∀ x ∈ a, ∀ y ∈ a, c x y = 0 :=
    fun x hx y hy => heq x (List.mem_append_left _ hx) y (List.mem_append_left _ hy)
  have hasorted : a.Sublist (w1 ++ w2) := hw ▸ hst a ha haeq
  rcases hb2 with rfl | rfl
  · rw [List.append_nil]
    exact hasorted.trans (List.Sublist.append (List.Sublist.refl w1) (List.sublist_cons_self p w2))
  · obtain ⟨a1, a2, rfl, h1, h2⟩ := List.sublist_append_iff.mp hasorted
    have ha2 : a2 = [] := by
      cases a2 with
      | nil => rfl
      | cons y t =>
        exfalso
        have hy2 : y ∈ w2 := h2.subset (List.mem_cons_self _ _)
        have hlt := hgt y hy2
        have hyp : c y p = 0 :=
          heq y (by simp) p (by simp)
        have := (hflip p y).mp hlt
        omega
    subst ha2
    simp only [List.append_nil]
    exact List.Sublist.append h1 (List.singleton_sublist.mpr (List.mem_cons_self _ _))

theorem binaryInsert_sorted {β : Type} (c : β → β → Int)
    (hflip : ∀ a b, c a b < 0 ↔ 0 < c b a)
    (htrans : ∀ a b d, c a b ≤ 0 → c b d ≤ 0 → c a d ≤ 0)
    (p : β) (sorted : List β) (hs : sorted.Pairwise (fun a b => c a b ≤ 0)) :
    (binaryInsert c p sorted.length sorted).Pairwise (fun a b => c a b ≤ 0) := by
  have hasym : ∀ a b, c a b < 0 → ¬ c b a < 0 := fun a b h h2 => by
    have := (hflip a b).mp h
    omega
  obtain ⟨w1, w2, hw, hr, hl, hh⟩ := binaryInsert_split c p sorted.length sorted (Nat.le_refl _)
  rw [hr, ← noDescent_iff_pairwise c hflip htrans]
  apply noDescent_insert c hasym p w1 w2 _ hl hh
  rw [noDescent_iff_pairwise c hflip htrans, ← hw]
  exact hs

theorem binaryInsertionSort_stable {β : Type} (c : β → β → Int)
    (hflip : ∀ a b, c a b < 0 ↔ 0 < c b a)
    (htrans : ∀ a b d, c a b ≤ 0 → c b d ≤ 0 → c a d ≤ 0) :
    ∀ (rest sorted done : List β), sorted.Pairwise (fun a b => c a b ≤ 0) →
      (∀ e : List β, e.Sublist done → (∀ a ∈ e, ∀ b ∈ e, c a b = 0) → e.Sublist sorted) →
      ∀ e : List β, e.Sublist (done ++ rest) → (∀ a ∈ e, ∀ b ∈ e, c a b = 0) →
        e.Sublist (binaryInsertionSort c sorted rest) := by
  intro rest
  induction rest with
  | nil =>
    intro sorted done _ hst e he heq
    rw [List.append_nil] at he
    exact hst e he heq
  | cons p rest ih =>
    intro sorted done hs hst e he heq
    simp only [binaryInsertionSort, List.foldl_cons]
    have he2 : e.Sublist ((done ++ [p]) ++ rest) := by
      rw [List.append_assoc]; exact he
    exact ih _ (done ++ [p]) (binaryInsert_sorted c hflip htrans p sorted hs)
      (binaryInsert_stable c hflip htrans p sorted done hs hst) e he2 heq

theorem countAndMakeRun_stable {β : Type} (c : β → β → Int)
    (hflip : ∀ a b, c a b < 0 ↔ 0 < c b a)
    (htrans : ∀ a b d, c a b ≤ 0 → c b d ≤ 0 → c a d ≤ 0) (l : List β) :
    ∃ done : List β, done ++ (countAndMakeRun c l).2 = l ∧
      ∀ e : List β, e.Sublist done → (∀ a ∈ e, ∀ b ∈ e, c a b = 0) →
        e.Sublist (countAndMakeRun c l).1 := by
  match l with
  | [] => exact ⟨[], rfl, fun e he _ => he⟩
  | [a] => exact ⟨[a], rfl, fun e he _ => he⟩
  | a :: b :: rest =>
    refine ⟨a :: b :: (takeRun c (decide (c b a < 0)) b rest).1, ?_, ?_⟩
    · simp only [countAndMakeRun, List.cons_append, takeRun_append]
    · intro e he heq
      simp only [countAndMakeRun]
      by_cases hd : c b a < 0
      · simp only [hd, decide_True, if_true] at he ⊢
        have hch : List.Chain' (fun x y => c y x < 0) (a :: b :: (takeRun c true b rest).1) :=
          List.chain'_cons.mpr ⟨hd, takeRun_descending c rest b⟩
        haveI : IsTrans β (fun x y => c y x < 0) :=
          ⟨fun x y z hxy hyz => lt_trans_of_le_trans c hflip htrans hyz hxy⟩
        have hpw := List.chain'_iff_pairwise.mp hch
        have hpe := hpw.sublist he
        match e, he, heq, hpe with
        | [], _, _, _ => exact List.nil_sublist _
        | [x], he, _, _ =>
          exact List.singleton_sublist.mpr
            (List.mem_reverse.mpr (he.subset (List.mem_cons_self _ _)))
        | x :: y :: t, _, heq, hpe =>
          exfalso
          have h1 : c y x < 0 := List.rel_of_pairwise_cons hpe (List.mem_cons_self _ _)
          have h2 : c y x = 0 := heq y (by simp) x (by simp)
          omega
      · simp only [hd, decide_False, Bool.false_eq_true, if_false] at he ⊢
        exact he

theorem runInsertionSort_sorted_of_consistent {β : Type} (c : β → β → Int)
    (hflip : ∀ a b, c a b < 0 ↔ 0 < c b a)
    (htrans : ∀ a b d, c a b ≤ 0 → c b d ≤ 0 → c a d ≤ 0) (l : List β) :
    (runInsertionSort c l).Pairwise (fun a b => c a b ≤ 0) := by
  rw [← noDescent_iff_pairwise c hflip htrans]
  apply noDescent_runInsertionSort
  intro a b h h2
  have := (hflip a b).mp h
  omega

theorem runInsertionSort_stable_of_consistent {β : Type} (c : β → β → Int)
    (hflip : ∀ a b, c a b < 0 ↔ 0 < c b a)
    (htrans : ∀ a b d, c a b ≤ 0 → c b d ≤ 0 → c a d ≤ 0) (l e : List β)
    (he : e.Sublist l) (heq : ∀ a ∈ e, ∀ b ∈ e, c a b = 0) :
    e.Sublist (runInsertionSort c l) := by
  unfold runInsertionSort
  split_ifs
  · exact he
  · obtain ⟨done, hdone, hst⟩ := countAndMakeRun_stable c hflip htrans l
    have hasym : ∀ a b, c a b < 0 → ¬ c b a < 0 := fun a b h h2 => by
      have := (hflip a b).mp h
      omega
    have hs : (countAndMakeRun c l).1.Pairwise (fun a b => c a b ≤ 0) :=
      (noDescent_iff_pairwise c hflip htrans _).mp (noDescent_countAndMakeRun c hasym l)
    have he2 : e.Sublist (done ++ (countAndMakeRun c l).2) := by rw [hdone]; exact he
    exact binaryInsertionSort_stable c hflip htrans _ _ done hs hst e he2 heq

/-! ## The run-and-insertion sort gives what ECMAScript guarantees -/

theorem runInsertionSort_eq_map_attach {α : Type} (cmp : α → α → Int) (l : List α) :
    runInsertionSort cmp l =
      (runInsertionSort (fun a b : { x // x ∈ l } => cmp a.1 b.1) l.attach).map Subtype.val := by
  rw [runInsertionSort_map Subtype.val cmp l.attach, List.attach_map_subtype_val]

theorem runInsertionSort_sorted {α : Type} (cmp : α → α → Int) (l : List α)
    (hc : ConsistentOn cmp l) :
    (runInsertionSort cmp l).Pairwise (fun a b => cmp a b ≤ 0) := by
  rw [runInsertionSort_eq_map_attach, List.pairwise_map]
  exact runInsertionSort_sorted_of_consistent (fun a b : { x // x ∈ l } => cmp a.1 b.1)
    (fun a b => hc.flip a.1 a.2 b.1 b.2)
    (fun a b d hab hbd => hc.le_trans a.2 b.2 d.2 hab hbd) l.attach

theorem runInsertionSort_stable {α : Type} (cmp : α → α → Int) (l : List α)
    (hc : ConsistentOn cmp l) (e : List α) (hsub : e.Sublist l)
    (heq : ∀ a ∈ e, ∀ b ∈ e, cmp a b = 0) : e.Sublist (runInsertionSort cmp l) := by
  rw [runInsertionSort_eq_map_attach]
  have hsub2 : e.Sublist (l.attach.map Subtype.val) := by
    rw [List.attach_map_subtype_val]; exact hsub
  obtain ⟨e2, he2, rfl⟩ := List.sublist_map_iff.mp hsub2
  apply List.Sublist.map
  exact runInsertionSort_stable_of_consistent (fun a b : { x // x ∈ l } => cmp a.1 b.1)
    (fun a b => hc.flip a.1 a.2 b.1 b.2)
    (fun a b d hab hbd => hc.le_trans a.2 b.2 d.2 hab hbd) l.attach e2 he2
    (fun a ha b hb => heq a.1 (List.mem_map_of_mem _ ha) b.1 (List.mem_map_of_mem _ hb))

/-- The reference runtime gives what ECMAScript guarantees of `sort`. -/
theorem refRuntime_conforms : refRuntime.Conforms where
  sort_perm := runInsertionSort_perm
  sort_sorted := runInsertionSort_sorted
  sort_stable := runInsertionSort_stable

/-- The reference runtime keeps runs. -/
theorem refRuntime_keepsRuns : refRuntime.KeepsRuns where
  sort_run := runInsertionSort_of_noDescent
  sort_noDescent := fun cmp l h => noDescent_runInsertionSort cmp h l

/-! ## `sortUsers` -/

theorem filter_eq_singleton {α : Type} {p : α → Bool} {e : α} :
    ∀ {l : List α}, l.Nodup → e ∈ l → (∀ x ∈ l, p x = true ↔ x = e) → l.filter p = [e] := by
  intro l
  induction l with
  | nil => intro _ he _; cases he
  | cons a l ih =>
    intro hnd he hp
    obtain ⟨ha, hnd2⟩ := List.nodup_cons.mp hnd
    by_cases hae : a = e
    · subst hae
      have hpa : p a = true := (hp a (List.mem_cons_self _ _)).mpr rfl
      have hnil : l.filter p = [] := by
        rw [List.filter_eq_nil_iff]
        intro x hx hpx
        have := (hp x (List.mem_cons_of_mem _ hx)).mp hpx
        exact ha (this ▸ hx)
      rw [List.filter_cons, if_pos hpa, hnil]
    · have hpa : ¬ p a = true := fun h => hae ((hp a (List.mem_cons_self _ _)).mp h)
      have he2 : e ∈ l := by
        rcases List.mem_cons.mp he with h | h
        · exact (hae h.symm).elim
        · exact h
      rw [List.filter_cons, if_neg hpa]
      exact ih hnd2 he2 (fun x hx => hp x (List.mem_cons_of_mem _ hx))

theorem compareUsers_eq_zero_iff (rt : JSRuntime) (field direction : JSString)
    {users : List User} (hk : KeysComparable rt field users) {a b : User}
    (ha : a ∈ users) (hb : b ∈ users) :
    compareUsers rt field direction a b = 0 ↔ sortKey rt field a = sortKey rt field b := by
  rw [compareUsers_eq]
  split_ifs
  · exact threeWay_eq_zero_iff_eq (sortKey_kind rt field a b) (hk a ha) (hk b hb)
  · rw [threeWay_eq_zero_iff_eq (sortKey_kind rt field b a) (hk b hb) (hk a ha)]
    exact eq_comm

theorem keysComparable_of_perm {rt : JSRuntime} {field : JSString} {l k : List User}
    (h : KeysComparable rt field l) (hp : k.Perm l) : KeysComparable rt field k :=
  fun u hu => h u (hp.subset hu)

/-- C4. On records whose keys under the field are comparable, and with a
`sort` that conforms to ECMAScript, `sortUsers` returns a permutation of the
input whose keys (the integer for `id`, the date for `dateOfAdmission`, the
lower-cased string for the other fields) never decrease when the direction is
"asc" and never increase when it is "desc" (or anything but "asc"); records
with equal keys keep their original order; and the argument array holds after
the call what it held before. -/
theorem sortUsers_spec (rt : JSRuntime) (hrt : rt.Conforms) (users : List User)
    (field direction : JSString) (hk : KeysComparable rt field users) :
    (sortUsers rt users field direction).Perm users ∧
    (direction = js "asc" → (sortUsers rt users field direction).Pairwise (fun a b =>
      (sortKey rt field a).lt (sortKey rt field b) = true ∨
        sortKey rt field a = sortKey rt field b)) ∧
    (direction ≠ js "asc" → (sortUsers rt users field direction).Pairwise (fun a b =>
      (sortKey rt field b).lt (sortKey rt field a) = true ∨
        sortKey rt field a = sortKey rt field b)) ∧
    (∀ k : JSValue,
      (sortUsers rt users field direction).filter (fun u => decide (sortKey rt field u = k)) =
        users.filter (fun u => decide (sortKey rt field u = k))) ∧
    (sortUsersCall rt users field direction).users = users ∧
    (∀ u : User, sortKey rt (js "id") u = .number (rt.parseInt u.id) ∧
      sortKey rt (js "dateOfAdmission") u = .date (rt.dateParse u.dateOfAdmission) ∧
      sortKey rt (js "name") u = .string (rt.toLowerCase u.name) ∧
      sortKey rt (js "email") u = .string (rt.toLowerCase u.email) ∧
      sortKey rt (js "phone") u = .string (rt.toLowerCase u.phone) ∧
      sortKey rt (js "enrollNumber") u = .string (rt.toLowerCase u.enrollNumber)) := by
  have hc := compareUsers_consistent rt field direction users hk
  have hperm : (sortUsers rt users field direction).Perm users :=
    hrt.sort_perm (compareUsers rt field direction) users
  have hsorted : (sortUsers rt users field direction).Pairwise
      (fun a b => compareUsers rt field direction a b ≤ 0) :=
    hrt.sort_sorted (compareUsers rt field direction) users hc
  refine ⟨hperm, ?_, ?_, ?_, rfl, ?_⟩
  · intro hd
    refine hsorted.imp_of_mem ?_
    intro a b ha hb hab
    rw [compareUsers_eq, if_pos hd] at hab
    have hnot : (sortKey rt field b).lt (sortKey rt field a) = false := by
      cases h : (sortKey rt field b).lt (sortKey rt field a) with
      | false => rfl
      | true =>
        have := (threeWay_pos_iff (sortKey rt field a) (sortKey rt field b)).mpr h
        omega
    rcases JSValue.lt_trichotomy (sortKey_kind rt field a b) (hk a (hperm.subset ha))
      (hk b (hperm.subset hb)) with h | h | h
    · exact .inr h
    · exact .inl h
    · rw [hnot] at h; cases h
  · intro hd
    refine hsorted.imp_of_mem ?_
    intro a b ha hb hab
    rw [compareUsers_eq, if_neg hd] at hab
    have hnot : (sortKey rt field a).lt (sortKey rt field b) = false := by
      cases h : (sortKey rt field a).lt (sortKey rt field b) with
      | false => rfl
      | true =>
        have := (threeWay_pos_iff (sortKey rt field b) (sortKey rt field a)).mpr h
        omega
    rcases JSValue.lt_trichotomy (sortKey_kind rt field a b) (hk a (hperm.subset ha))
      (hk b (hperm.subset hb)) with h | h | h
    · exact .inr h
    · rw [hnot] at h; cases h
    · exact .inl h
  · intro k
    by_cases hex : ∃ e ∈ users, sortKey rt field e = k
    · obtain ⟨e, he, rfl⟩ := hex
      have h1 : (sortUsers rt users field direction).filter
          (fun u => decide (sortKey rt field u = sortKey rt field e)) =
          (sortUsers rt users field direction).filter
            (fun u => decide (compareUsers rt field direction e u = 0)) := by
        apply List.filter_congr
        intro u hu
        rw [decide_eq_decide, compareUsers_eq_zero_iff rt field direction hk he
          (hperm.subset hu)]
        exact eq_comm
      have h2 : users.filter (fun u => decide (sortKey rt field u = sortKey rt field e)) =
          users.filter (fun u => decide (compareUsers rt field direction e u = 0)) := by
        apply List.filter_congr
        intro u hu
        rw [decide_eq_decide, compareUsers_eq_zero_iff rt field direction hk he hu]
        exact eq_comm
      rw [h1, h2]
      exact hrt.filter_class hc he
    · have h1 : users.filter (fun u => decide (sortKey rt field u = k)) = [] := by
        rw [List.filter_eq_nil_iff]
        intro u hu hku
        exact hex ⟨u, hu, by simpa using hku⟩
      have h2 : (sortUsers rt users field direction).filter
          (fun u => decide (sortKey rt field u = k)) = [] := by
        rw [List.filter_eq_nil_iff]
        intro u hu hku
        exact hex ⟨u, hperm.subset hu, by simpa using hku⟩
      rw [h1, h2]
  · intro u
    refine ⟨by simp [sortKey], ?_, ?_, ?_, ?_, ?_⟩
    · simp [sortKey, (by decide : js "dateOfAdmission" ≠ js "id")]
    · simp [sortKey, (by decide : js "name" ≠ js "id"),
        (by decide : js "name" ≠ js "dateOfAdmission")]
    · simp [sortKey, (by decide : js "email" ≠ js "id"),
        (by decide : js "email" ≠ js "dateOfAdmission"), (by decide : js "email" ≠ js "name")]
    · simp [sortKey, (by decide : js "phone" ≠ js "id"),
        (by decide : js "phone" ≠ js "dateOfAdmission"), (by decide : js "phone" ≠ js "name"),
        (by decide : js "phone" ≠ js "email")]
    · simp [sortKey, (by decide : js "enrollNumber" ≠ js "id"),
        (by decide : js "enrollNumber" ≠ js "dateOfAdmission"),
        (by decide : js "enrollNumber" ≠ js "name"),
        (by decide : js "enrollNumber" ≠ js "email"),
        (by decide : js "enrollNumber" ≠ js "phone")]

/-- C4, at an input: three records sorted by id on the reference runtime. -/
theorem sortUsers_spec_witness :
    KeysComparable refRuntime (js "id") unsortedStore ∧
    (sortUsers refRuntime unsortedStore (js "id") (js "asc")).Perm unsortedStore ∧
    (sortUsers refRuntime unsortedStore (js "id") (js "asc")).Pairwise (fun a b =>
      (sortKey refRuntime (js "id") a).lt (sortKey refRuntime (js "id") b) = true ∨
        sortKey refRuntime (js "id") a = sortKey refRuntime (js "id") b) ∧
    (sortUsersCall refRuntime unsortedStore (js "id") (js "asc")).users = unsortedStore :=
  have hk : KeysComparable refRuntime (js "id") unsortedStore := by
    unfold KeysComparable; decide
  have h := sortUsers_spec refRuntime refRuntime_conforms unsortedStore (js "id") (js "asc") hk
  ⟨hk, h.1, h.2.1 rfl, h.2.2.2.2.1⟩

theorem keysComparable_name (rt : JSRuntime) (users : List User) :
    KeysComparable rt (js "name") users := by
  intro u _
  simp [sortKey, JSValue.isNaN, (by decide : js "name" ≠ js "id"),
    (by decide : js "name" ≠ js "dateOfAdmission")]

theorem sortKey_name (rt : JSRuntime) (u : User) :
    sortKey rt (js "name") u = .string (rt.toLowerCase u.name) := by
  simp [sortKey, (by decide : js "name" ≠ js "id"),
    (by decide : js "name" ≠ js "dateOfAdmission")]

/-- C9, the statement as written fails: "Ana" and "ana" are distinct names
with the same key, so both sorts leave the two records in their original
order and the second sort does not reverse the first. -/
theorem sortUsers_desc_of_asc_not_reverse :
    refRuntime.Conforms ∧ (caseTwins.map User.name).Nodup ∧
    sortUsers refRuntime caseTwins (js "name") (js "asc") =
      [student "1" "Ana", student "2" "ana"] ∧
    sortUsers refRuntime (sortUsers refRuntime caseTwins (js "name") (js "asc"))
      (js "name") (js "desc") = [student "1" "Ana", student "2" "ana"] ∧
    sortUsers refRuntime (sortUsers refRuntime caseTwins (js "name") (js "asc"))
      (js "name") (js "desc") ≠
        (sortUsers refRuntime caseTwins (js "name") (js "asc")).reverse := by
  have h1 : sortUsers refRuntime caseTwins (js "name") (js "asc") =
      [student "1" "Ana", student "2" "ana"] := by
    decide
  have h2 : sortUsers refRuntime [student "1" "Ana", student "2" "ana"]
      (js "name") (js "desc") = [student "1" "Ana", student "2" "ana"] := by
    decide
  refine ⟨refRuntime_conforms, by decide, h1, ?_, ?_⟩
  · rw [h1, h2]
  · rw [h1, h2]
    decide

/-- C9, amended. For every list of records whose lower-cased names are
distinct, sorting by name ascending and then by name descending gives the
reverse of the ascending order. -/
theorem sortUsers_desc_of_asc_eq_reverse (rt : JSRuntime) (hrt : rt.Conforms)
    (users : List User) (hd : (users.map (fun u => rt.toLowerCase u.name)).Nodup) :
    sortUsers rt (sortUsers rt users (js "name") (js "asc")) (js "name") (js "desc") =
      (sortUsers rt users (js "name") (js "asc")).reverse := by
  have hne : js "desc" ≠ js "asc" := by decide
  have hpermA : (sortUsers rt users (js "name") (js "asc")).Perm users :=
    hrt.sort_perm _ users
  have hkA := keysComparable_name rt (sortUsers rt users (js "name") (js "asc"))
  have hcA := compareUsers_consistent rt (js "name") (js "asc") users
    (keysComparable_name rt users)
  have hcD := compareUsers_consistent rt (js "name") (js "desc") _ hkA
  have hcR := compareUsers_consistent rt (js "name") (js "desc") _
    (keysComparable_name rt (sortUsers rt users (js "name") (js "asc")).reverse)
  have hsA : (sortUsers rt users (js "name") (js "asc")).Pairwise
      (fun a b => compareUsers rt (js "name") (js "asc") a b ≤ 0) :=
    hrt.sort_sorted _ users hcA
  have hndA : (sortUsers rt users (js "name") (js "asc")).Nodup :=
    hpermA.nodup_iff.mpr (List.Nodup.of_map _ hd)
  have hinj : ∀ x ∈ users, ∀ y ∈ users,
      rt.toLowerCase x.name = rt.toLowerCase y.name → x = y :=
    fun x hx y hy h => List.inj_on_of_nodup_map hd hx hy h
  show rt.arraySort (compareUsers rt (js "name") (js "desc"))
      (sortUsers rt users (js "name") (js "asc")) = _
  apply sorted_eq_of_class_eq _ _ hcR
  · exact (hrt.sort_perm _ _).trans (List.reverse_perm _).symm
  · rw [List.pairwise_reverse]
    refine hsA.imp ?_
    intro a b hab
    rw [compareUsers_eq, if_pos rfl] at hab
    rw [compareUsers_eq, if_neg hne]
    exact hab
  · exact hrt.sort_sorted _ _ hcD
  · intro e he
    have heA : e ∈ sortUsers rt users (js "name") (js "asc") := List.mem_reverse.mp he
    have hsingle : (sortUsers rt users (js "name") (js "asc")).filter
        (fun x => decide (compareUsers rt (js "name") (js "desc") e x = 0)) = [e] := by
      apply filter_eq_singleton hndA heA
      intro x hx
      rw [decide_eq_true_eq, compareUsers_eq_zero_iff rt (js "name") (js "desc") hkA heA hx,
        sortKey_name, sortKey_name]
      constructor
      · intro h
        exact (hinj e (hpermA.subset heA) x (hpermA.subset hx)
          (JSValue.string.inj h)).symm
      · rintro rfl; rfl
    rw [hrt.filter_class hcD heA, List.filter_reverse, hsingle]
    rfl

/-- C9 amended, at an input: three records with distinct lower-cased names. -/
theorem sortUsers_desc_of_asc_eq_reverse_witness :
    (unsortedStore.map (fun u => refRuntime.toLowerCase u.name)).Nodup ∧
    sortUsers refRuntime (sortUsers refRuntime unsortedStore (js "name") (js "asc"))
      (js "name") (js "desc") =
        (sortUsers refRuntime unsortedStore (js "name") (js "asc")).reverse :=
  ⟨by decide, sortUsers_desc_of_asc_eq_reverse refRuntime refRuntime_conforms unsortedStore
    (by decide)⟩

theorem compareUsers_asymm (rt : JSRuntime) (field direction : JSString) (a b : User)
    (h : compareUsers rt field direction a b < 0) :
    ¬ compareUsers rt field direction b a < 0 := by
  rw [compareUsers_eq] at h ⊢
  split_ifs at h ⊢
  · rw [threeWay_neg_iff] at h ⊢
    rw [JSValue.lt_asymm h]
    simp
  · rw [threeWay_neg_iff] at h ⊢
    rw [JSValue.lt_asymm h]
    simp

/-- On records whose keys under the field are comparable (every id parses as
an integer when sorting by id, every date parses when sorting by date of
admission), the ECMAScript guarantees alone make the second sort leave the
result of the first as it is. -/
theorem sortUsers_idempotent_of_comparable (rt : JSRuntime) (hrt : rt.Conforms)
    (users : List User) (field direction : JSString) (hk : KeysComparable rt field users) :
    sortUsers rt (sortUsers rt users field direction) field direction =
      sortUsers rt users field direction :=
  hrt.sort_idem (compareUsers_consistent rt field direction users hk)

/-- C10. Sorting twice with the same arguments gives the same list as sorting
once, for every list of records, every field and every direction, also when
some ids do not parse as integers and every comparison with them is false.
With such ids the comparator is not consistent and ECMAScript leaves the order
to the engine, so this is a theorem about engines whose sort keeps runs, as
V8's does: the comparator never says both `a < b` and `b < a`, hence the first
sort returns a list in which no record is less than the one before it, and the
second sort finds that list to be one run and returns it. -/
theorem sortUsers_idempotent (rt : JSRuntime) (hrt : rt.KeepsRuns) (users : List User)
    (field direction : JSString) :
    sortUsers rt (sortUsers rt users field direction) field direction =
      sortUsers rt users field direction :=
  hrt.sort_run (compareUsers rt field direction) _
    (hrt.sort_noDescent (compareUsers rt field direction) users
      (compareUsers_asymm rt field direction))

/-- C10, at an input: six records of which one has the id "x", sorted by id.
The reference runtime returns them as 1, 2, 3, 4, 5, x, and returns the same
list when it sorts that result again. -/
theorem sortUsers_idempotent_witness :
    refRuntime.KeepsRuns ∧
    (sortUsers refRuntime nanIdStore (js "id") (js "asc")).map User.id =
      [js "1", js "2", js "3", js "4", js "5", js "x"] ∧
    sortUsers refRuntime (sortUsers refRuntime nanIdStore (js "id") (js "asc"))
      (js "id") (js "asc") = sortUsers refRuntime nanIdStore (js "id") (js "asc") :=
  ⟨refRuntime_keepsRuns, by decide,
    sortUsers_idempotent refRuntime refRuntime_keepsRuns nanIdStore (js "id") (js "asc")⟩

/-! ## Dates that do not parse -/

theorem dateErrors_unparsable (rt : JSRuntime) (now : Int) (d : JSString) (hne : d ≠ [])
    (hpar : rt.dateParse d = none) : dateErrors rt now (some d) = [] := by
  cases d with
  | nil => exact (hne rfl).elim
  | cons c r => simp [dateErrors, hpar, numLt]

/-- C11. When the date of admission is a non-empty string that does not parse
to a date, the validator adds neither "Date of admission is required" nor
"Date of admission cannot be in the future"; if the other four fields pass
their rules the result is `isValid = true` with an empty error list. -/
theorem validateUserData_unparsable_date (rt : JSRuntime) (now : Int) (u : UserData)
    (d : JSString) (hd : u.dateOfAdmission = some d) (hne : d ≠ [])
    (hpar : rt.dateParse d = none) :
    msgDateRequired ∉ (validateUserData rt now u).errors ∧
    msgDateFuture ∉ (validateUserData rt now u).errors ∧
    (NameRule u → EmailRule u → PhoneRule u → EnrollRule u →
      validateUserData rt now u = { isValid := true, errors := [] }) := by
  have hdate : dateErrors rt now u.dateOfAdmission = [] := by
    rw [hd]; exact dateErrors_unparsable rt now d hne hpar
  have herr : (validateUserData rt now u).errors =
      ruleErrors (falsyOr u.name (fun name => decide ((trim name).length < 2))) msgName ++
      ruleErrors (falsyOr u.email (fun email => !emailRegex.test email)) msgEmail ++
      ruleErrors (falsyOr u.phone (fun phone => !phoneRegex.test (stripNonDigits phone)))
        msgPhone ++
      ruleErrors (falsyOr u.enrollNumber (fun en => decide ((trim en).length < 3)))
        msgEnroll := by
    rw [validateUserData_errors, errorsByRule, hdate, List.append_nil]
  have hR : msgDateRequired ≠ msgName ∧ msgDateRequired ≠ msgEmail ∧
      msgDateRequired ≠ msgPhone ∧ msgDateRequired ≠ msgEnroll := by decide
  have hF : msgDateFuture ≠ msgName ∧ msgDateFuture ≠ msgEmail ∧
      msgDateFuture ≠ msgPhone ∧ msgDateFuture ≠ msgEnroll := by decide
  refine ⟨?_, ?_, ?_⟩
  · rw [herr]
    simp only [List.mem_append, mem_ruleErrors_iff, hR.1, hR.2.1, hR.2.2.1, hR.2.2.2,
      and_false, or_false, not_false_eq_true]
  · rw [herr]
    simp only [List.mem_append, mem_ruleErrors_iff, hF.1, hF.2.1, hF.2.2.1, hF.2.2.2,
      and_false, or_false, not_false_eq_true]
  · intro hn he hp hr
    have hnil : (validateUserData rt now u).errors = [] := by
      rw [herr, (name_guard_iff u).mpr hn, (email_guard_iff u).mpr he,
        (phone_guard_iff u).mpr hp, (enroll_guard_iff u).mpr hr]
      rfl
    have hval : (validateUserData rt now u).isValid = true :=
      (validateUserData_isValid rt now u).mpr hnil
    calc validateUserData rt now u
        = { isValid := (validateUserData rt now u).isValid,
            errors := (validateUserData rt now u).errors } := rfl
      _ = { isValid := true, errors := [] } := by rw [hnil, hval]

/-- C11, at an input: a well-formed candidate whose date of admission is the
text "soon", which the reference runtime does not read as a date. -/
theorem validateUserData_unparsable_date_witness :
    refRuntime.dateParse (js "soon") = none ∧
    msgDateRequired ∉ (validateUserData refRuntime newYear2024 admittedSoon).errors ∧
    msgDateFuture ∉ (validateUserData refRuntime newYear2024 admittedSoon).errors ∧
    validateUserData refRuntime newYear2024 admittedSoon = { isValid := true, errors := [] } :=
  have h := validateUserData_unparsable_date refRuntime newYear2024 admittedSoon (js "soon")
    rfl (by decide) (by decide)
  ⟨by decide, h.1, h.2.1, h.2.2 ⟨_, rfl, by decide⟩ ⟨_, rfl, (test_iff _ _).mp (by decide)⟩
    ⟨_, rfl, by decide, by decide⟩ ⟨_, rfl, by decide⟩⟩

end StudentManager
